import Mathlib

/-!
Verification of the intra-node all-reduce core
(`torch/csrc/distributed/c10d/intra_node_comm.cu`).

The development shallowly embeds the host-side routines and the data
movement of the three CUDA reduction kernels:

* machine integers are modelled as `Nat`, with an explicit `% 2 ^ 32`
  (resp. `% 2 ^ 64`) exactly where the C++ narrows to `uint32_t`
  (`divUp` / `alignUp` take `uint32_t` parameters) or wraps in `size_t`
  (the two-shot all-gather index);
* a bf16 lane value is an opaque 16-bit payload carried as a `Nat`; the
  hardware packed addition `__hadd2` is an abstract parameter
  `hadd : Nat → Nat → Nat`, and the `memset`-zeroed accumulator is the
  all-zero payload `0`.  Lane `ii` of a `bf16x8` register only ever
  meets lane `ii` of other registers, so a 128-bit chunk is modelled as
  its eight lanes;
* a kernel is modelled by the list of (address, value) stores its grid
  performs; barrier-separated phases of the multi-stage algorithms
  become sequential rounds reading the previous round's memory, which
  matches the release/acquire discipline documented in the source;
* fallible host code (`TORCH_CHECK`, `C10_THROW_ERROR`) returns
  `Except Err`;
* `getHybridCubeMesh` iterates `std::unordered_set<size_t>` whose
  element order the C++ standard leaves open.  With libstdc++ (the
  toolchain this file targets) a set grown by ascending inserts and
  shrunk by erases is traversed in descending key order, which was
  confirmed experimentally; the embedding therefore scans candidate
  neighbors in descending rank order.
-/

namespace IntraNodeComm

/-! ### Compile-time constants (intra_node_comm.cu lines 10-17, header) -/

def kBytesPerThread : Nat := 16
def kMaxAllReduceBlocks : Nat := 24
def kThreadsPerBlock : Nat := 1024
def kWarpSize : Nat := 32
def kMaxDevices : Nat := 8

def kHcmThreshBytes : Nat := 256 * 1024
def kOneShotThreshBytes : Nat := 256 * 1024
def kTwoShotThreshBytes : Nat := 10 * 1024 * 1024

/-- Errors surfaced by the host routines: `TORCH_CHECK` failures and the
dispatcher's `C10_THROW_ERROR(ValueError, ...)`. -/
inductive Err where
  | checkFailed : Err
  | invalidAlgo : Err
deriving DecidableEq, Repr

/-! ### divUp / alignUp

The C++ helpers take `uint32_t` parameters, so a `size_t` argument is
narrowed modulo `2 ^ 32` at the call boundary. -/

/-- Truncation to `uint32_t`. -/
def u32 (a : Nat) : Nat := a % 2 ^ 32

/-- Source `divUp(a, b) = (a + b - 1) / b` on `uint32_t` arguments. -/
def divUp (a b : Nat) : Nat := (u32 a + u32 b - 1) / u32 b

/-- Source `alignUp(a, b) = divUp(a, b) * b` on `uint32_t` arguments. -/
def alignUp (a b : Nat) : Nat := divUp a b * u32 b

theorem u32_eq_of_lt {a : Nat} (h : a < 2 ^ 32) : u32 a = a := Nat.mod_eq_of_lt h

theorem divUp_eq (a b : Nat) (ha : a < 2 ^ 32) (hb : b < 2 ^ 32) :
    divUp a b = (a + b - 1) / b := by
  unfold divUp
  rw [u32_eq_of_lt ha, u32_eq_of_lt hb]

theorem alignUp_eq (a b : Nat) (ha : a < 2 ^ 32) (hb : b < 2 ^ 32) :
    alignUp a b = (a + b - 1) / b * b := by
  unfold alignUp
  rw [divUp_eq a b ha hb, u32_eq_of_lt hb]

/-- For in-range arguments `alignUp` is the least multiple of `b` that is
`≥ a`. -/
theorem alignUp_spec (a b : Nat) (hb : 0 < b) (ha : a < 2 ^ 32) (hb32 : b < 2 ^ 32) :
    a ≤ alignUp a b ∧ alignUp a b % b = 0 ∧ alignUp a b < a + b := by
  rw [alignUp_eq a b ha hb32]
  refine ⟨?_, Nat.mul_mod_left _ _, ?_⟩
  · have h := le_smul_ceilDiv (b := a) hb
    rw [Nat.ceilDiv_eq_add_pred_div, smul_eq_mul, Nat.mul_comm] at h
    exact h
  · have h2 : (a + b - 1) / b * b ≤ a + b - 1 := Nat.div_mul_le_self _ _
    omega

/-! ### getLaunchConfig (lines 430-453) -/

/-- Source `getLaunchConfig`: picks `(blocks.x, threads.x)` from the
aligned element count and the element size. -/
def getLaunchConfig (N_aligned elemSize : Nat) : Except Err (Nat × Nat) :=
  let numelPerThread := kBytesPerThread / elemSize
  let numelPerWarp := numelPerThread * kWarpSize
  if N_aligned % numelPerThread ≠ 0 then Except.error Err.checkFailed
  else if N_aligned % numelPerWarp ≠ 0 then Except.error Err.checkFailed
  else if N_aligned < numelPerThread * kThreadsPerBlock then
    Except.ok (1, N_aligned / numelPerWarp * kWarpSize)
  else
    let warpsRequired := N_aligned / numelPerWarp
    let threadsRequired := N_aligned / numelPerThread
    let blocks := min (divUp threadsRequired kThreadsPerBlock) kMaxAllReduceBlocks
    let warpsPerBlock := divUp warpsRequired blocks
    Except.ok (blocks, min kThreadsPerBlock (warpsPerBlock * kWarpSize))

/-- Helper: on a positive warp-aligned element count the launch-config
checks pass and the grid geometry is the closed form from the source. -/
theorem getLaunchConfig_ok (N es : Nat) (hes : 0 < es) (hdvd : es ∣ kBytesPerThread)
    (hpos : 0 < N) (hmul : N % (kBytesPerThread / es * kWarpSize) = 0) (h32 : N < 2 ^ 32) :
    ∃ B T, getLaunchConfig N es = Except.ok (B, T) ∧ 0 < B ∧ 0 < T ∧
      ((kBytesPerThread / es * kThreadsPerBlock ≤ N →
          B = min ((N / (kBytesPerThread / es) + kThreadsPerBlock - 1) / kThreadsPerBlock)
                kMaxAllReduceBlocks ∧
          T = min kThreadsPerBlock
                ((N / (kBytesPerThread / es * kWarpSize) + B - 1) / B * kWarpSize)) ∧
        (N < kBytesPerThread / es * kThreadsPerBlock →
          B = 1 ∧ T = N / (kBytesPerThread / es * kWarpSize) * kWarpSize)) := by
  have hnpt : 0 < kBytesPerThread / es :=
    Nat.div_pos (Nat.le_of_dvd (by decide) hdvd) hes
  have hnpw : 0 < kBytesPerThread / es * kWarpSize := by
    have : (0 : Nat) < kWarpSize := by decide
    positivity
  have hdvdN : kBytesPerThread / es * kWarpSize ∣ N := Nat.dvd_of_mod_eq_zero hmul
  have hmul' : N % (kBytesPerThread / es) = 0 := by
    have h1 : kBytesPerThread / es ∣ kBytesPerThread / es * kWarpSize := Dvd.intro _ rfl
    rcases h1.trans hdvdN with ⟨c, rfl⟩
    exact Nat.mul_mod_right _ _
  have hNnpw : kBytesPerThread / es * kWarpSize ≤ N := Nat.le_of_dvd hpos hdvdN
  have hdivpos : 0 < N / (kBytesPerThread / es * kWarpSize) :=
    Nat.div_pos hNnpw hnpw
  rw [getLaunchConfig]
  simp only [hmul, hmul', ne_eq, not_true_eq_false, if_false, ite_false, not_false_iff]
  by_cases hbig : N < kBytesPerThread / es * kThreadsPerBlock
  · rw [if_pos hbig]
    refine ⟨1, _, rfl, Nat.one_pos, ?_, fun h => absurd hbig (by omega), fun _ => ⟨rfl, rfl⟩⟩
    have : (0 : Nat) < kWarpSize := by decide
    positivity
  · rw [if_neg hbig]
    push_neg at hbig
    have hthr : kThreadsPerBlock ≤ N / (kBytesPerThread / es) := by
      rw [Nat.le_div_iff_mul_le hnpt]
      calc kThreadsPerBlock * (kBytesPerThread / es)
          = kBytesPerThread / es * kThreadsPerBlock := Nat.mul_comm _ _
        _ ≤ N := hbig
    have h1 : divUp (N / (kBytesPerThread / es)) kThreadsPerBlock =
        (N / (kBytesPerThread / es) + kThreadsPerBlock - 1) / kThreadsPerBlock := by
      apply divUp_eq
      · exact lt_of_le_of_lt (Nat.div_le_self _ _) h32
      · decide
    have hBpos : 0 < min (divUp (N / (kBytesPerThread / es)) kThreadsPerBlock)
        kMaxAllReduceBlocks := by
      rw [h1]
      apply lt_min
      · have : kThreadsPerBlock ≤ N / (kBytesPerThread / es) + kThreadsPerBlock - 1 := by
          have : (0 : Nat) < kThreadsPerBlock := by decide
          omega
        have := Nat.div_le_div_right (c := kThreadsPerBlock) this
        rw [Nat.div_self (by decide : (0:Nat) < kThreadsPerBlock)] at this
        omega
      · decide
    have hBle : min (divUp (N / (kBytesPerThread / es)) kThreadsPerBlock)
        kMaxAllReduceBlocks ≤ kMaxAllReduceBlocks := Nat.min_le_right _ _
    have h2 : divUp (N / (kBytesPerThread / es * kWarpSize))
        (min (divUp (N / (kBytesPerThread / es)) kThreadsPerBlock) kMaxAllReduceBlocks) =
        (N / (kBytesPerThread / es * kWarpSize) +
          min (divUp (N / (kBytesPerThread / es)) kThreadsPerBlock) kMaxAllReduceBlocks - 1) /
          min (divUp (N / (kBytesPerThread / es)) kThreadsPerBlock) kMaxAllReduceBlocks := by
      apply divUp_eq
      · exact lt_of_le_of_lt (Nat.div_le_self _ _) h32
      · have : kMaxAllReduceBlocks < 2 ^ 32 := by decide
        omega
    refine ⟨_, _, rfl, hBpos, ?_, fun _ => ⟨by rw [h1], by rw [h2, h1]⟩, fun h => absurd h (by omega)⟩
    apply lt_min
    · decide
    · have hwpb : 0 < divUp (N / (kBytesPerThread / es * kWarpSize))
          (min (divUp (N / (kBytesPerThread / es)) kThreadsPerBlock) kMaxAllReduceBlocks) := by
        rw [h2]
        have hB := hBpos
        set B := min (divUp (N / (kBytesPerThread / es)) kThreadsPerBlock) kMaxAllReduceBlocks
        have : B ≤ N / (kBytesPerThread / es * kWarpSize) + B - 1 := by omega
        have := Nat.div_le_div_right (c := B) this
        rw [Nat.div_self hB] at this
        omega
      have : (0 : Nat) < kWarpSize := by decide
      positivity

/-- C7: for every positive `N_aligned` that is a multiple of
`warpSize × elementsPerThread`, `getLaunchConfig` returns
`blocks.x = min(⌈threadsRequired / 1024⌉, 24)` and
`threads.x = min(1024, ⌈warpsRequired / blocks.x⌉ × warpSize)` when
`N_aligned` fills at least one 1024-thread block, and otherwise
`blocks.x = 1` with `threads.x` equal to exactly the number of warps
needed times `warpSize`. -/
theorem claim_C7_launch_config (N es : Nat) (hes : 0 < es) (hdvd : es ∣ kBytesPerThread)
    (hpos : 0 < N) (hmul : N % (kBytesPerThread / es * kWarpSize) = 0) (h32 : N < 2 ^ 32) :
    ∃ B T, getLaunchConfig N es = Except.ok (B, T) ∧
      ((kBytesPerThread / es * kThreadsPerBlock ≤ N →
          B = min ((N / (kBytesPerThread / es) + kThreadsPerBlock - 1) / kThreadsPerBlock)
                kMaxAllReduceBlocks ∧
          T = min kThreadsPerBlock
                ((N / (kBytesPerThread / es * kWarpSize) + B - 1) / B * kWarpSize)) ∧
        (N < kBytesPerThread / es * kThreadsPerBlock →
          B = 1 ∧ T = N / (kBytesPerThread / es * kWarpSize) * kWarpSize)) := by
  obtain ⟨B, T, hok, _, _, hbig, hsmall⟩ := getLaunchConfig_ok N es hes hdvd hpos hmul h32
  exact ⟨B, T, hok, hbig, hsmall⟩

/-- Witness for C7 at `N_aligned = 65536`, `elemSize = 2` (bf16): the big
branch yields 8 blocks of 1024 threads. -/
theorem claim_C7_launch_config_witness :
    (0 : Nat) < 2 ∧ (2 : Nat) ∣ kBytesPerThread ∧ (0 : Nat) < 65536 ∧
      65536 % (kBytesPerThread / 2 * kWarpSize) = 0 ∧ 65536 < 2 ^ 32 ∧
      ∃ B T, getLaunchConfig 65536 2 = Except.ok (B, T) ∧
        ((kBytesPerThread / 2 * kThreadsPerBlock ≤ 65536 →
            B = min ((65536 / (kBytesPerThread / 2) + kThreadsPerBlock - 1) / kThreadsPerBlock)
                  kMaxAllReduceBlocks ∧
            T = min kThreadsPerBlock
                  ((65536 / (kBytesPerThread / 2 * kWarpSize) + B - 1) / B * kWarpSize)) ∧
          (65536 < kBytesPerThread / 2 * kThreadsPerBlock →
            B = 1 ∧ T = 65536 / (kBytesPerThread / 2 * kWarpSize) * kWarpSize)) :=
  ⟨by decide, by decide, by decide, by decide, by decide,
    claim_C7_launch_config 65536 2 (by decide) (by decide) (by decide) (by decide) (by decide)⟩

/-! ### selectAllReduceAlgo (lines 654-681)

`kMaxIntraNodeSize` is declared in the header (not part of this
translation unit), so routines that consult it take it as an explicit
parameter; the spec constrains it to be at least 10 MiB × 2 bytes. -/

/-- Element dtypes relevant to `input.dtype()` checks. -/
inductive DType where
  | bf16 : DType
  | f16 : DType
  | f32 : DType
deriving DecidableEq, Repr

/-- Source `input.element_size()`. -/
def elementSize : DType → Nat
  | DType.bf16 => 2
  | DType.f16 => 2
  | DType.f32 => 4

/-- The metadata of an input tensor that the selector consults. -/
structure TensorMeta where
  dtype : DType
  numel : Nat
deriving DecidableEq, Repr

/-- Source `Topology` tag. -/
inductive Topology where
  | UNKNOWN : Topology
  | FULLY_CONNECTED : Topology
  | HYBRID_CUBE_MESH : Topology
deriving DecidableEq, Repr, Fintype

/-- Source `AllReduceAlgo` tag. -/
inductive AllReduceAlgo where
  | NONE : AllReduceAlgo
  | ONE_SHOT : AllReduceAlgo
  | TWO_SHOT : AllReduceAlgo
  | HCM : AllReduceAlgo
deriving DecidableEq, Repr, Fintype

/-- Source `selectAllReduceAlgo`, linearized: the `TORCH_CHECK` inside
the hybrid-cube-mesh branch surfaces as `Except.error`, and the two
topology branches fall through to `NONE` exactly as in the source. -/
def selectAllReduceAlgo (kMaxIntraNodeSize : Nat) (input : TensorMeta)
    (topology : Topology) (worldSize : Nat) : Except Err AllReduceAlgo :=
  if input.dtype ≠ DType.bf16 ∨
      kMaxIntraNodeSize < input.numel * elementSize input.dtype then
    Except.ok AllReduceAlgo.NONE
  else if topology = Topology.HYBRID_CUBE_MESH ∧ worldSize ≠ 8 then
    Except.error Err.checkFailed
  else if topology = Topology.HYBRID_CUBE_MESH ∧
      alignUp input.numel (kBytesPerThread / elementSize input.dtype * kWarpSize) ≤
        kHcmThreshBytes then
    Except.ok AllReduceAlgo.HCM
  else if topology = Topology.FULLY_CONNECTED ∧
      alignUp input.numel (kBytesPerThread / elementSize input.dtype * kWarpSize) ≤
        kOneShotThreshBytes then
    Except.ok AllReduceAlgo.ONE_SHOT
  else if topology = Topology.FULLY_CONNECTED ∧
      alignUp input.numel
          (kBytesPerThread / elementSize input.dtype * kWarpSize * worldSize) ≤
        kTwoShotThreshBytes then
    Except.ok AllReduceAlgo.TWO_SHOT
  else Except.ok AllReduceAlgo.NONE

/-- The selector as the specification words it: thresholds compared
against the payload size in bytes after alignment.  This definition
follows the spec text and exists only to be compared with
`selectAllReduceAlgo` above. -/
def selectAllReduceAlgoSpec (kMaxIntraNodeSize : Nat) (input : TensorMeta)
    (topology : Topology) (worldSize : Nat) : AllReduceAlgo :=
  let es := elementSize input.dtype
  let numelPerWarp := kBytesPerThread / es * kWarpSize
  if input.dtype ≠ DType.bf16 ∨ kMaxIntraNodeSize < input.numel * es then
    AllReduceAlgo.NONE
  else if topology = Topology.HYBRID_CUBE_MESH ∧ worldSize = 8 ∧
      alignUp input.numel numelPerWarp * es ≤ kHcmThreshBytes then
    AllReduceAlgo.HCM
  else if topology = Topology.FULLY_CONNECTED ∧
      alignUp input.numel numelPerWarp * es ≤ kOneShotThreshBytes then
    AllReduceAlgo.ONE_SHOT
  else if topology = Topology.FULLY_CONNECTED ∧
      alignUp input.numel (numelPerWarp * worldSize) * es ≤ kTwoShotThreshBytes then
    AllReduceAlgo.TWO_SHOT
  else AllReduceAlgo.NONE

/-- C2 counterexample: for a fully-connected bf16 tensor of 200000
elements the warp-aligned payload is 200192 elements = 400384 bytes,
which exceeds the 256 KiB threshold read as bytes, yet the source picks
`ONE_SHOT` because it compares the aligned element count (not the byte
count) against `kOneShotThreshBytes`.  The spec reading would pick
`TWO_SHOT`. -/
theorem claim_C2_counterexample :
    selectAllReduceAlgo 20971520 ⟨DType.bf16, 200000⟩ Topology.FULLY_CONNECTED 2 =
        Except.ok AllReduceAlgo.ONE_SHOT ∧
      selectAllReduceAlgoSpec 20971520 ⟨DType.bf16, 200000⟩ Topology.FULLY_CONNECTED 2 =
        AllReduceAlgo.TWO_SHOT ∧
      kOneShotThreshBytes <
        alignUp 200000 (kBytesPerThread / elementSize DType.bf16 * kWarpSize) *
          elementSize DType.bf16 := by
  refine ⟨rfl, rfl, by decide⟩

/-- C2 amended: `selectAllReduceAlgo` returns `NONE` unless the dtype is
bf16 and the payload byte size is at most `kMaxIntraNodeSize`; otherwise
it returns `HCM` exactly when the topology is `HYBRID_CUBE_MESH` (with
`worldSize = 8`) and the warp-aligned element count is at most
`kHcmThreshBytes = 262144` (for bf16: 512 KiB), `ONE_SHOT` exactly when
the topology is `FULLY_CONNECTED` and the warp-aligned element count is
at most `262144`, `TWO_SHOT` exactly when the topology is
`FULLY_CONNECTED`, the one-shot bound fails and the element count
aligned to `worldSize × warp` granularity is at most
`kTwoShotThreshBytes = 10485760` (for bf16: 20 MiB), and `NONE`
otherwise.  The thresholds are compared against element counts, not
byte counts. -/
theorem claim_C2_selector (kMax : Nat) (input : TensorMeta) (topology : Topology)
    (W : Nat) (hW : topology = Topology.HYBRID_CUBE_MESH → W = 8) :
    ∃ a, selectAllReduceAlgo kMax input topology W = Except.ok a ∧
      (a = AllReduceAlgo.HCM ↔
        (input.dtype = DType.bf16 ∧ input.numel * elementSize input.dtype ≤ kMax) ∧
        topology = Topology.HYBRID_CUBE_MESH ∧ W = 8 ∧
        alignUp input.numel (kBytesPerThread / elementSize input.dtype * kWarpSize) ≤
          kHcmThreshBytes) ∧
      (a = AllReduceAlgo.ONE_SHOT ↔
        (input.dtype = DType.bf16 ∧ input.numel * elementSize input.dtype ≤ kMax) ∧
        topology = Topology.FULLY_CONNECTED ∧
        alignUp input.numel (kBytesPerThread / elementSize input.dtype * kWarpSize) ≤
          kOneShotThreshBytes) ∧
      (a = AllReduceAlgo.TWO_SHOT ↔
        (input.dtype = DType.bf16 ∧ input.numel * elementSize input.dtype ≤ kMax) ∧
        topology = Topology.FULLY_CONNECTED ∧
        ¬ alignUp input.numel (kBytesPerThread / elementSize input.dtype * kWarpSize) ≤
            kOneShotThreshBytes ∧
        alignUp input.numel
            (kBytesPerThread / elementSize input.dtype * kWarpSize * W) ≤
          kTwoShotThreshBytes) := by
  rcases input with ⟨dt, numel⟩
  rcases dt with _ | _ | _
  rotate_left
  · exact ⟨AllReduceAlgo.NONE, by simp [selectAllReduceAlgo], by simp, by simp, by simp⟩
  · exact ⟨AllReduceAlgo.NONE, by simp [selectAllReduceAlgo], by simp, by simp, by simp⟩
  · simp only [TensorMeta.mk.injEq, elementSize]
    by_cases hsz : kMax < numel * 2
    · refine ⟨AllReduceAlgo.NONE, ?_, by simp; omega, by simp; omega, by simp; omega⟩
      simp [selectAllReduceAlgo, elementSize, hsz]
    · push_neg at hsz
      rcases topology with _ | _ | _
      · refine ⟨AllReduceAlgo.NONE, ?_, by simp, by simp, by simp⟩
        simp [selectAllReduceAlgo, elementSize, hsz, Nat.not_lt.mpr hsz]
      · by_cases h1 : alignUp numel (kBytesPerThread / 2 * kWarpSize) ≤ kOneShotThreshBytes
        · refine ⟨AllReduceAlgo.ONE_SHOT, ?_, by simp, by simp [hsz, h1], by simp [h1]⟩
          simp [selectAllReduceAlgo, elementSize, Nat.not_lt.mpr hsz, h1]
        · by_cases h2 : alignUp numel (kBytesPerThread / 2 * kWarpSize * W) ≤
              kTwoShotThreshBytes
          · refine ⟨AllReduceAlgo.TWO_SHOT, ?_, by simp, by simp [h1], by simp [hsz, h1, h2]⟩
            simp [selectAllReduceAlgo, elementSize, Nat.not_lt.mpr hsz, h1, h2]
          · refine ⟨AllReduceAlgo.NONE, ?_, by simp, by simp [h1], by simp [h1, h2]⟩
            simp [selectAllReduceAlgo, elementSize, Nat.not_lt.mpr hsz, h1, h2]
      · have hW8 : W = 8 := hW rfl
        subst hW8
        by_cases h1 : alignUp numel (kBytesPerThread / 2 * kWarpSize) ≤ kHcmThreshBytes
        · refine ⟨AllReduceAlgo.HCM, ?_, by simp [hsz, h1], by simp, by simp⟩
          simp [selectAllReduceAlgo, elementSize, Nat.not_lt.mpr hsz, h1]
        · refine ⟨AllReduceAlgo.NONE, ?_, by simp [h1], by simp, by simp⟩
          simp [selectAllReduceAlgo, elementSize, Nat.not_lt.mpr hsz, h1]

/-- Witness for C2 at a fully-connected bf16 tensor of 1024 elements:
the selector returns `ONE_SHOT` and the characterization holds. -/
theorem claim_C2_selector_witness :
    ∃ a, selectAllReduceAlgo 20971520 ⟨DType.bf16, 1024⟩ Topology.FULLY_CONNECTED 2 =
        Except.ok a ∧
      (a = AllReduceAlgo.HCM ↔
        (DType.bf16 = DType.bf16 ∧ 1024 * elementSize DType.bf16 ≤ 20971520) ∧
        Topology.FULLY_CONNECTED = Topology.HYBRID_CUBE_MESH ∧ (2 : Nat) = 8 ∧
        alignUp 1024 (kBytesPerThread / elementSize DType.bf16 * kWarpSize) ≤
          kHcmThreshBytes) ∧
      (a = AllReduceAlgo.ONE_SHOT ↔
        (DType.bf16 = DType.bf16 ∧ 1024 * elementSize DType.bf16 ≤ 20971520) ∧
        Topology.FULLY_CONNECTED = Topology.FULLY_CONNECTED ∧
        alignUp 1024 (kBytesPerThread / elementSize DType.bf16 * kWarpSize) ≤
          kOneShotThreshBytes) ∧
      (a = AllReduceAlgo.TWO_SHOT ↔
        (DType.bf16 = DType.bf16 ∧ 1024 * elementSize DType.bf16 ≤ 20971520) ∧
        Topology.FULLY_CONNECTED = Topology.FULLY_CONNECTED ∧
        ¬ alignUp 1024 (kBytesPerThread / elementSize DType.bf16 * kWarpSize) ≤
            kOneShotThreshBytes ∧
        alignUp 1024 (kBytesPerThread / elementSize DType.bf16 * kWarpSize * 2) ≤
          kTwoShotThreshBytes) :=
  claim_C2_selector 20971520 ⟨DType.bf16, 1024⟩ Topology.FULLY_CONNECTED 2
    (by intro h; cases h)

/-! ### Kernel grid machinery

A kernel thread with linear offset `o` and grid stride `s` visits the
chunk base indices `o, o + s, o + s * 2, ...` below the bound; the grid
is the union over `blockIdx.x < blocks` and `threadIdx.x < threads`.
Memory is `Nat → Nat` (element index to bf16 payload) and a kernel's
effect is the list of (index, payload) stores it performs. -/

/-- Elements per thread for bf16: `kBytesPerThread / sizeof(at::BFloat16)`. -/
def numelPerThread : Nat := kBytesPerThread / 2

/-- Chunk base indices visited by `for (i = offset; i < bound; i += stride)`. -/
def loopIdxs (stride bound i : Nat) : List Nat :=
  if h : 0 < stride ∧ i < bound then i :: loopIdxs stride bound (i + stride) else []
termination_by bound - i
decreasing_by omega

theorem mem_loopIdxs {stride bound : Nat} (hs : 0 < stride) :
    ∀ i j, j ∈ loopIdxs stride bound i ↔ (∃ m, j = i + m * stride) ∧ j < bound := by
  suffices h : ∀ n i, bound - i ≤ n →
      ∀ j, j ∈ loopIdxs stride bound i ↔ (∃ m, j = i + m * stride) ∧ j < bound by
    intro i j
    exact h (bound - i) i (le_refl _) j
  intro n
  induction n with
  | zero =>
    intro i hle j
    rw [loopIdxs, dif_neg (by omega : ¬ (0 < stride ∧ i < bound))]
    simp only [List.not_mem_nil, false_iff]
    rintro ⟨⟨m, rfl⟩, hlt⟩
    omega
  | succ n ihn =>
    intro i hle j
    rw [loopIdxs]
    by_cases hcond : 0 < stride ∧ i < bound
    · rw [dif_pos hcond]
      have ih := ihn (i + stride) (by omega) j
      simp only [List.mem_cons, ih]
      constructor
      · rintro (rfl | ⟨⟨m, rfl⟩, hlt⟩)
        · exact ⟨⟨0, by omega⟩, hcond.2⟩
        · exact ⟨⟨m + 1, by ring⟩, hlt⟩
      · rintro ⟨⟨m, rfl⟩, hlt⟩
        rcases m with _ | m
        · left
          omega
        · right
          exact ⟨⟨m, by ring⟩, hlt⟩
    · rw [dif_neg hcond]
      simp only [List.not_mem_nil, false_iff]
      rintro ⟨⟨m, rfl⟩, hlt⟩
      omega

/-- Every chunk base below the bound is visited by the thread whose
linear id is the chunk index modulo the grid size. -/
theorem chunk_covered (blocks threads bound c : Nat) (hb : 0 < blocks) (ht : 0 < threads)
    (hlt : c * numelPerThread < bound) :
    ∃ bi ti, bi < blocks ∧ ti < threads ∧
      c * numelPerThread ∈
        loopIdxs (threads * blocks * numelPerThread) bound
          ((threads * bi + ti) * numelPerThread) := by
  have hTT : 0 < threads * blocks := Nat.mul_pos ht hb
  refine ⟨c % (threads * blocks) / threads, c % (threads * blocks) % threads, ?_, ?_, ?_⟩
  · exact Nat.div_lt_of_lt_mul (Nat.mod_lt _ hTT)
  · exact Nat.mod_lt _ ht
  · rw [mem_loopIdxs (Nat.mul_pos hTT (by decide))]
    refine ⟨⟨c / (threads * blocks), ?_⟩, hlt⟩
    have h2 : threads * (c % (threads * blocks) / threads) + c % (threads * blocks) % threads
        = c % (threads * blocks) := Nat.div_add_mod _ _
    rw [h2]
    have h3 := Nat.mod_add_div c (threads * blocks)
    calc c * numelPerThread
        = (c % (threads * blocks) + threads * blocks * (c / (threads * blocks))) *
            numelPerThread := by rw [h3]
      _ = c % (threads * blocks) * numelPerThread +
            c / (threads * blocks) * (threads * blocks * numelPerThread) := by ring

/-- Apply a list of (index, payload) stores to a memory, later stores
winning. -/
def applyWrites (ws : List (Nat × Nat)) (mem : Nat → Nat) : Nat → Nat :=
  ws.foldl (fun m w => fun j => if j = w.1 then w.2 else m j) mem

theorem applyWrites_not_mem (ws : List (Nat × Nat)) (mem : Nat → Nat) (j : Nat)
    (h : ∀ w ∈ ws, w.1 ≠ j) : applyWrites ws mem j = mem j := by
  induction ws generalizing mem with
  | nil => rfl
  | cons w ws ih =>
    simp only [applyWrites, List.foldl_cons] at ih ⊢
    rw [ih _ (fun w2 hw => h w2 (List.mem_cons_of_mem _ hw))]
    have hne : j ≠ w.1 := fun hj => h w (List.mem_cons_self _ _) hj.symm
    rw [if_neg hne]

theorem applyWrites_mem (ws : List (Nat × Nat)) (mem : Nat → Nat) (j : Nat) (f : Nat → Nat)
    (hval : ∀ w ∈ ws, w.1 = j → w.2 = f j) (hex : ∃ w ∈ ws, w.1 = j) :
    applyWrites ws mem j = f j := by
  induction ws generalizing mem with
  | nil => simp at hex
  | cons w ws ih =>
    simp only [applyWrites, List.foldl_cons] at ih ⊢
    by_cases hex2 : ∃ w ∈ ws, w.1 = j
    · exact ih _ (fun w2 hw => hval w2 (List.mem_cons_of_mem _ hw)) hex2
    · have hw1 : w.1 = j := by
        rcases hex with ⟨w0, hw0, hj0⟩
        rcases List.mem_cons.1 hw0 with rfl | hw0
        · exact hj0
        · exact absurd ⟨w0, hw0, hj0⟩ hex2
      have hnot : ∀ w2 ∈ ws, w2.1 ≠ j := fun w2 hw2 hj2 => hex2 ⟨w2, hw2, hj2⟩
      have hskip := applyWrites_not_mem ws (fun j2 => if j2 = w.1 then w.2 else mem j2) j hnot
      simp only [applyWrites] at hskip
      rw [hskip, if_pos hw1.symm]
      exact hval w (List.mem_cons_self _ _) hw1

/-- The store list of one guarded 128-bit chunk store: `streamStore128`
writes all eight lanes, the tail path writes lane `ii` only when
`i + ii < N`. -/
def chunkStores (f : Nat → Nat) (aligned : Bool) (N i : Nat) : List (Nat × Nat) :=
  (List.range numelPerThread).filterMap (fun ii =>
    if aligned then some (i + ii, f (i + ii))
    else if i + ii < N then some (i + ii, f (i + ii)) else none)

/-- Stores of a single thread over its grid-stride loop. -/
def threadStores (f : Nat → Nat) (aligned : Bool) (N N_aligned stride offset : Nat) :
    List (Nat × Nat) :=
  (loopIdxs stride N_aligned offset).flatMap (chunkStores f aligned N)

/-- Stores of the whole grid. -/
def gridStores (f : Nat → Nat) (aligned : Bool) (N N_aligned blocks threads : Nat) :
    List (Nat × Nat) :=
  (List.range blocks).flatMap (fun bi =>
    (List.range threads).flatMap (fun ti =>
      threadStores f aligned N N_aligned (threads * blocks * numelPerThread)
        ((threads * bi + ti) * numelPerThread)))

theorem gridStores_sound {f : Nat → Nat} {aligned : Bool} {N N_aligned blocks threads : Nat}
    (hal : N_aligned % numelPerThread = 0) :
    ∀ w ∈ gridStores f aligned N N_aligned blocks threads,
      w.2 = f w.1 ∧ w.1 < N_aligned ∧ (aligned = false → w.1 < N) := by
  intro w hw
  have h8 : numelPerThread = 8 := by decide
  rw [gridStores] at hw
  rcases List.mem_flatMap.1 hw with ⟨bi, hbi, hw⟩
  rcases List.mem_flatMap.1 hw with ⟨ti, hti, hw⟩
  rw [threadStores] at hw
  rcases List.mem_flatMap.1 hw with ⟨i, hi, hw⟩
  rw [List.mem_range] at hbi hti
  have hstride : 0 < threads * blocks * numelPerThread :=
    Nat.mul_pos (Nat.mul_pos (by omega) (by omega)) (by decide)
  rw [mem_loopIdxs hstride] at hi
  rcases hi with ⟨⟨m, rfl⟩, hbound⟩
  rw [chunkStores] at hw
  rcases List.mem_filterMap.1 hw with ⟨ii, hii, hw⟩
  rw [List.mem_range, h8] at hii
  have hmod : ((threads * bi + ti) * numelPerThread +
      m * (threads * blocks * numelPerThread)) % 8 = 0 := by
    have hfac : (threads * bi + ti) * numelPerThread +
        m * (threads * blocks * numelPerThread)
        = ((threads * bi + ti) + m * (threads * blocks)) * 8 := by
      rw [h8]
      ring
    rw [hfac]
    exact Nat.mul_mod_left _ _
  rw [h8] at hal
  have hposlt : (threads * bi + ti) * numelPerThread +
      m * (threads * blocks * numelPerThread) + ii < N_aligned := by omega
  rcases aligned with _ | _
  · simp only [Bool.false_eq_true, if_false] at hw
    by_cases hlt : (threads * bi + ti) * numelPerThread +
        m * (threads * blocks * numelPerThread) + ii < N
    · rw [if_pos hlt] at hw
      cases hw
      exact ⟨rfl, hposlt, fun _ => hlt⟩
    · rw [if_neg hlt] at hw
      simp at hw
  · simp only [if_true] at hw
    cases hw
    exact ⟨rfl, hposlt, fun h => absurd h (by decide)⟩

theorem gridStores_covers {f : Nat → Nat} {aligned : Bool} {N N_aligned blocks threads : Nat}
    (hb : 0 < blocks) (ht : 0 < threads) (j : Nat) (hj : j < N_aligned)
    (hjN : aligned = true ∨ j < N) :
    ∃ w ∈ gridStores f aligned N N_aligned blocks threads, w.1 = j := by
  obtain ⟨bi, ti, hbi, hti, hmem⟩ :=
    chunk_covered blocks threads N_aligned (j / numelPerThread) hb ht
      (lt_of_le_of_lt (Nat.div_mul_le_self _ _) hj)
  refine ⟨(j, f j), ?_, rfl⟩
  rw [gridStores]
  refine List.mem_flatMap.2 ⟨bi, List.mem_range.2 hbi, ?_⟩
  refine List.mem_flatMap.2 ⟨ti, List.mem_range.2 hti, ?_⟩
  rw [threadStores]
  refine List.mem_flatMap.2 ⟨j / numelPerThread * numelPerThread, hmem, ?_⟩
  rw [chunkStores]
  refine List.mem_filterMap.2
    ⟨j % numelPerThread, List.mem_range.2 (Nat.mod_lt _ (by decide)), ?_⟩
  have hsplit : j / numelPerThread * numelPerThread + j % numelPerThread = j :=
    Nat.div_add_mod' _ _
  rcases aligned with _ | _
  · rcases hjN with h | h
    · cases h
    · simp only [Bool.false_eq_true, if_false, hsplit, if_pos h]
  · simp only [if_true, hsplit]

/-- Output characterization: inside the guarded region the grid writes
the per-lane value, outside it the original memory survives. -/
theorem applyGrid_char (f : Nat → Nat) (aligned : Bool) (N N_aligned blocks threads : Nat)
    (mem : Nat → Nat) (hal : N_aligned % numelPerThread = 0) (hb : 0 < blocks)
    (ht : 0 < threads) (j : Nat) :
    ((j < N_aligned ∧ (aligned = true ∨ j < N)) →
      applyWrites (gridStores f aligned N N_aligned blocks threads) mem j = f j) ∧
    ((N_aligned ≤ j ∨ (aligned = false ∧ N ≤ j)) →
      applyWrites (gridStores f aligned N N_aligned blocks threads) mem j = mem j) := by
  constructor
  · rintro ⟨h1, h2⟩
    apply applyWrites_mem _ _ _ f
    · intro w hw hwj
      obtain ⟨hv, _, _⟩ := gridStores_sound hal w hw
      rw [hv, hwj]
    · exact gridStores_covers hb ht j h1 h2
  · intro h
    apply applyWrites_not_mem
    intro w hw hwj
    obtain ⟨_, hlt, htail⟩ := gridStores_sound hal w hw
    rcases h with h | ⟨ha, hN⟩
    · omega
    · have := htail ha
      omega

/-! ### One-shot all-reduce (kernel lines 130-183, host lines 493-548)

`checkInput` (dtype / density / device checks) validates tensor
metadata outside this data model; the model operates on the raw bf16
lane payloads of a validated tensor.  The host stages
`buffers[rank] ← input` (the `cudaMemcpyAsync` of `numel` elements) and
launches the kernel; the pre-kernel barrier is modelled by letting the
kernel read the buffer state after all ranks staged. -/

/-- Per-lane value computed by the one-shot kernel body: sources are
`srcs[ii] = buffers[(rank + ii) % kWorldSize]`, the accumulator starts
as the `memset` zero payload and the eight-lane packed adds reduce the
sources in order `ii = 0 .. kWorldSize-1`. -/
def rotatedLaneSum (hadd : Nat → Nat → Nat) (W rank : Nat) (bufs : Nat → Nat → Nat)
    (j : Nat) : Nat :=
  (List.range W).foldl (fun sums ii => hadd sums (bufs ((rank + ii) % W) j)) 0

/-- Stores performed by `oneShotAllReduceKernel` applied to the caller's
buffer. -/
def oneShotKernelOut (hadd : Nat → Nat → Nat) (W rank : Nat) (aligned : Bool)
    (bufs : Nat → Nat → Nat) (N N_aligned blocks threads : Nat) (input : Nat → Nat) :
    Nat → Nat :=
  applyWrites (gridStores (rotatedLaneSum hadd W rank bufs) aligned N N_aligned blocks threads)
    input

/-- The staging copy `buffers[rank] ← input[0..N)` of one rank. -/
def stageRank (bufs : Nat → Nat → Nat) (rank : Nat) (input : Nat → Nat) (N : Nat) :
    Nat → Nat → Nat :=
  fun r j => if r = rank ∧ j < N then input j else bufs r j

/-- Host `oneShotAllReduce`: alignment, size check, launch config,
staging, and the kernel dispatch over world sizes 2..8 with the
aligned/unaligned template split.  A world size outside 2..8 matches no
`X(kWorldSize)` dispatch arm and the input is returned unchanged. -/
def oneShotAllReduce (hadd : Nat → Nat → Nat) (kMaxIntraNodeSize W rank N : Nat)
    (bufs : Nat → Nat → Nat) (input : Nat → Nat) : Except Err (Nat → Nat) :=
  let numelPerWarp := kBytesPerThread / 2 * kWarpSize
  let N_aligned := alignUp N numelPerWarp
  if ¬ N_aligned ≤ kMaxIntraNodeSize / 2 then Except.error Err.checkFailed
  else
    match getLaunchConfig N_aligned 2 with
    | Except.error e => Except.error e
    | Except.ok (blocks, threads) =>
      let staged := stageRank bufs rank input N
      if 2 ≤ W ∧ W ≤ 8 then
        if N_aligned = N then
          Except.ok (oneShotKernelOut hadd W rank true staged N N_aligned blocks threads input)
        else
          Except.ok (oneShotKernelOut hadd W rank false staged N N_aligned blocks threads input)
      else Except.ok input

/-- The buffer state once every rank has staged its own input of length
`N`: rank `r` staged `x r`, other bytes keep their prior content. -/
def stageAll (x old : Nat → Nat → Nat) (N : Nat) : Nat → Nat → Nat :=
  fun r j => if j < N then x r j else old r j

theorem stageRank_stageAll (x old : Nat → Nat → Nat) (N rank : Nat) :
    stageRank (stageAll x old N) rank (x rank) N = stageAll x old N := by
  funext r j
  rw [stageRank, stageAll]
  by_cases h : j < N
  · by_cases hr : r = rank
    · subst hr
      simp [h]
    · simp [h, hr]
  · simp [h]

theorem rotatedLaneSum_congr (hadd : Nat → Nat → Nat) (W rank : Nat)
    (bufs bufs2 : Nat → Nat → Nat) (j : Nat) (hW : 0 < W)
    (hagree : ∀ r2, r2 < W → bufs r2 j = bufs2 r2 j) :
    rotatedLaneSum hadd W rank bufs j = rotatedLaneSum hadd W rank bufs2 j := by
  rw [rotatedLaneSum, rotatedLaneSum]
  apply List.foldl_ext
  intro acc ii _
  rw [hagree _ (Nat.mod_lt _ hW)]

/-- Characterization of the one-shot host call: it succeeds, positions
below `N` carry the kernel's rank-rotated bf16 sums over the staged
buffers, and positions at or beyond `N` keep the caller's bytes. -/
theorem oneShotAllReduce_char (hadd : Nat → Nat → Nat) (kMax W rank N : Nat)
    (bufs : Nat → Nat → Nat) (input : Nat → Nat) (hW1 : 2 ≤ W) (hW2 : W ≤ 8) (hN : 0 < N)
    (h32 : N + kBytesPerThread / 2 * kWarpSize ≤ 2 ^ 32)
    (hcap : alignUp N (kBytesPerThread / 2 * kWarpSize) ≤ kMax / 2) :
    ∃ out, oneShotAllReduce hadd kMax W rank N bufs input = Except.ok out ∧
      (∀ j, j < N →
        out j = rotatedLaneSum hadd W rank (stageRank bufs rank input N) j) ∧
      (∀ j, N ≤ j → out j = input j) := by
  have hnpw : (0 : Nat) < kBytesPerThread / 2 * kWarpSize := by decide
  obtain ⟨hle, hmod, hlt⟩ := alignUp_spec N (kBytesPerThread / 2 * kWarpSize) hnpw
    (by omega) (by decide)
  have hmod8 : alignUp N (kBytesPerThread / 2 * kWarpSize) % numelPerThread = 0 := by
    have h1 : numelPerThread ∣ kBytesPerThread / 2 * kWarpSize := by decide
    rcases h1.trans (Nat.dvd_of_mod_eq_zero hmod) with ⟨c, hc⟩
    rw [hc]
    exact Nat.mul_mod_right _ _
  obtain ⟨B, T, hok, hB, hT, _⟩ := getLaunchConfig_ok
    (alignUp N (kBytesPerThread / 2 * kWarpSize)) 2 (by decide) (by decide)
    (by omega) hmod (by omega)
  rw [oneShotAllReduce]
  simp only [hok, if_neg (by omega : ¬ ¬ alignUp N (kBytesPerThread / 2 * kWarpSize) ≤
    kMax / 2), if_pos (⟨hW1, hW2⟩ : 2 ≤ W ∧ W ≤ 8)]
  by_cases hali : alignUp N (kBytesPerThread / 2 * kWarpSize) = N
  · rw [if_pos hali]
    refine ⟨_, rfl, ?_, ?_⟩
    · intro j hj
      rw [oneShotKernelOut]
      exact (applyGrid_char _ true N _ B T input hmod8 hB hT j).1 ⟨by omega, Or.inl rfl⟩
    · intro j hj
      rw [oneShotKernelOut]
      exact (applyGrid_char _ true N _ B T input hmod8 hB hT j).2 (Or.inl (by omega))
  · rw [if_neg hali]
    refine ⟨_, rfl, ?_, ?_⟩
    · intro j hj
      rw [oneShotKernelOut]
      exact (applyGrid_char _ false N _ B T input hmod8 hB hT j).1 ⟨by omega, Or.inr hj⟩
    · intro j hj
      rw [oneShotKernelOut]
      exact (applyGrid_char _ false N _ B T input hmod8 hB hT j).2 (Or.inr ⟨rfl, hj⟩)

/-- C1: for every world size 2..8 and identical-length bf16 inputs
`x r` on each rank, after the one-shot all-reduce every rank's output
lane `j < N` equals the bf16 sum of all ranks' inputs in the kernel's
summation order: starting from the zero payload and adding peer
`(rank + ii) % W` for `ii = 0 .. W-1`, with the packed bf16 addition
`hadd` applied at each step. -/
theorem claim_C1_one_shot_correct (hadd : Nat → Nat → Nat) (kMax W rank N : Nat)
    (x old : Nat → Nat → Nat) (hW1 : 2 ≤ W) (hW2 : W ≤ 8) (hr : rank < W) (hN : 0 < N)
    (h32 : N + kBytesPerThread / 2 * kWarpSize ≤ 2 ^ 32)
    (hcap : alignUp N (kBytesPerThread / 2 * kWarpSize) ≤ kMax / 2) :
    ∃ out, oneShotAllReduce hadd kMax W rank N (stageAll x old N) (x rank) = Except.ok out ∧
      ∀ j, j < N →
        out j = (List.range W).foldl (fun sums ii => hadd sums (x ((rank + ii) % W) j)) 0 := by
  obtain ⟨out, hok, hin, _⟩ := oneShotAllReduce_char hadd kMax W rank N
    (stageAll x old N) (x rank) hW1 hW2 hN h32 hcap
  refine ⟨out, hok, fun j hj => ?_⟩
  rw [hin j hj, stageRank_stageAll]
  rw [rotatedLaneSum_congr hadd W rank (stageAll x old N) x j (by omega)
    (fun r2 _ => by rw [stageAll, if_pos hj])]
  rfl

/-- Witness for C1: two ranks, eight elements, `hadd` instantiated as
`Nat.add` on lane payloads; rank 0's output lane 3 is
`0 + x 0 3 + x 1 3 = 9`. -/
theorem claim_C1_one_shot_correct_witness :
    ∃ out, oneShotAllReduce Nat.add 20971520 2 0 8
        (stageAll (fun r j => if r = 0 then j else 8 - j) (fun _ _ => 0) 8)
        ((fun r j => if (r : Nat) = 0 then j else 8 - j) 0) = Except.ok out ∧
      ∀ j, j < 8 →
        out j = (List.range 2).foldl
          (fun sums ii => Nat.add sums
            ((fun r j => if (r : Nat) = 0 then j else 8 - j) ((0 + ii) % 2) j)) 0 :=
  claim_C1_one_shot_correct Nat.add 20971520 2 0 8
    (fun r j => if r = 0 then j else 8 - j) (fun _ _ => 0)
    (by decide) (by decide) (by decide) (by decide) (by decide) (by decide)

/-! ### Two-shot all-reduce (kernel lines 185-254, host lines 550-607)

Phase 1 (reduce-scatter) and phase 2 (all-gather) are separated by the
`signals1` barrier; phase 2 reads the buffer state produced by every
rank's phase 1.  Within phase 1 each thread loads a chunk before storing
to the same chunk, and distinct ranks write disjoint regions, so phase 1
is modelled as reading the pre-phase buffers throughout. -/

/-- Source `size_t k = N_start + i + (srcRanks[ii] - rank) * N_per_rank`
computed in `size_t` arithmetic: the subtraction and the surrounding
expression wrap modulo `2 ^ 64` (`srcRanks[ii] = (rank + ii) % kWorldSize`,
`N_start = N_per_rank * rank`). -/
def twoShotGatherIdx (W rank ii i Npr : Nat) : Nat :=
  (Npr * rank + i + ((rank + ii) % W + 2 ^ 64 - rank) % 2 ^ 64 * Npr) % 2 ^ 64

/-- The wrapped gather index collapses to `srcRank * N_per_rank + i`. -/
theorem twoShotGatherIdx_eq (W rank ii i Npr : Nat) (hr : rank < W) (hi : i < Npr)
    (h64 : W * Npr ≤ 2 ^ 64) :
    twoShotGatherIdx W rank ii i Npr = (rank + ii) % W * Npr + i := by
  have hW : 0 < W := by omega
  have hNpr : 0 < Npr := by omega
  set s := (rank + ii) % W with hs
  have hsW : s < W := Nat.mod_lt _ hW
  have hsmall : s * Npr + i < 2 ^ 64 := by
    calc s * Npr + i < s * Npr + Npr := by omega
      _ = (s + 1) * Npr := by ring
      _ ≤ W * Npr := Nat.mul_le_mul_right _ (by omega)
      _ ≤ 2 ^ 64 := h64
  rw [twoShotGatherIdx]
  by_cases hcase : rank ≤ s
  · have h1 : s + 2 ^ 64 - rank = (s - rank) + 2 ^ 64 := by omega
    have h2 : (s - rank) < 2 ^ 64 := by
      have : s < 2 ^ 64 := by
        calc s < W := hsW
          _ ≤ W * Npr := Nat.le_mul_of_pos_right _ hNpr
          _ ≤ 2 ^ 64 := h64
      omega
    rw [h1, Nat.add_mod_right, Nat.mod_eq_of_lt h2]
    have h3 : Npr * rank + i + (s - rank) * Npr = s * Npr + i := by
      rw [Nat.sub_mul]
      have h4 : rank * Npr ≤ s * Npr := Nat.mul_le_mul_right _ hcase
      have h5 : Npr * rank = rank * Npr := Nat.mul_comm _ _
      omega
    rw [h3, Nat.mod_eq_of_lt hsmall]
  · push_neg at hcase
    have h1 : s + 2 ^ 64 - rank < 2 ^ 64 := by omega
    rw [Nat.mod_eq_of_lt h1]
    have h2 : Npr * rank + i + (s + 2 ^ 64 - rank) * Npr
        = s * Npr + i + 2 ^ 64 * Npr := by
      have h3 : (s + 2 ^ 64 - rank) * Npr = s * Npr + 2 ^ 64 * Npr - rank * Npr := by
        rw [← Nat.add_mul, Nat.sub_mul]
      have hrank64 : rank ≤ 2 ^ 64 := by
        have hWN : W ≤ W * Npr := Nat.le_mul_of_pos_right _ hNpr
        omega
      have h4 : rank * Npr ≤ s * Npr + 2 ^ 64 * Npr := by
        calc rank * Npr ≤ 2 ^ 64 * Npr := Nat.mul_le_mul_right _ hrank64
          _ ≤ s * Npr + 2 ^ 64 * Npr := Nat.le_add_left _ _
      have h5 : Npr * rank = rank * Npr := Nat.mul_comm _ _
      omega
    rw [h2, Nat.add_mul_mod_self_left, Nat.mod_eq_of_lt hsmall]

/-- C9: the all-gather index computation wraps in `size_t` yet always
recovers `srcRanks[ii] * N_per_rank + i`, which lies inside
`[0, N_aligned)`; in particular when `srcRanks[ii] < rank` the
subtraction underflows and the wraparound cancels. -/
theorem claim_C9_gather_index (W rank ii i Npr : Nat) (hr : rank < W)
    (hii1 : 1 ≤ ii) (hii : ii < W) (hi : i < Npr) (h64 : W * Npr ≤ 2 ^ 64) :
    twoShotGatherIdx W rank ii i Npr = (rank + ii) % W * Npr + i ∧
      twoShotGatherIdx W rank ii i Npr < W * Npr := by
  have heq := twoShotGatherIdx_eq W rank ii i Npr hr hi h64
  refine ⟨heq, ?_⟩
  rw [heq]
  have hsW : (rank + ii) % W < W := Nat.mod_lt _ (by omega)
  calc (rank + ii) % W * Npr + i < (rank + ii) % W * Npr + Npr := by omega
    _ = ((rank + ii) % W + 1) * Npr := by ring
    _ ≤ W * Npr := Nat.mul_le_mul_right _ (by omega)

/-- Witness for C9: world size 3, rank 2, peer slot 1 — the source rank
`(2 + 1) % 3 = 0` is smaller than the rank, the `size_t` subtraction
wraps, and the index still lands at `0 * 16 + 5 = 5`. -/
theorem claim_C9_gather_index_witness :
    twoShotGatherIdx 3 2 1 5 16 = (2 + 1) % 3 * 16 + 5 ∧
      twoShotGatherIdx 3 2 1 5 16 < 3 * 16 :=
  claim_C9_gather_index 3 2 1 5 16 (by decide) (by decide) (by decide) (by decide)
    (by norm_num)

/-- A rotated source index with `1 ≤ ii < W` never points back at the
local rank. -/
theorem rotIdx_ne_rank (W rank ii : Nat) (hr : rank < W) (h1 : 1 ≤ ii) (h2 : ii < W) :
    (rank + ii) % W ≠ rank := by
  by_cases hlt : rank + ii < W
  · rw [Nat.mod_eq_of_lt hlt]
    omega
  · push_neg at hlt
    rw [Nat.mod_eq_sub_mod hlt, Nat.mod_eq_of_lt (by omega)]
    omega

/-- Every non-local shard owner `s` is reached by the rotation at slot
`ii = (s + W - rank) % W`, which lies in `[1, W)`. -/
theorem rotIdx_surj (W rank s : Nat) (hr : rank < W) (hs : s < W) (hne : s ≠ rank) :
    1 ≤ (s + W - rank) % W ∧ (s + W - rank) % W < W ∧
      (rank + (s + W - rank) % W) % W = s := by
  have hW : 0 < W := by omega
  refine ⟨?_, Nat.mod_lt _ hW, ?_⟩
  · by_cases hcase : rank ≤ s
    · have h1 : s + W - rank = (s - rank) + W := by omega
      rw [h1, Nat.add_mod_right, Nat.mod_eq_of_lt (by omega)]
      omega
    · rw [Nat.mod_eq_of_lt (by omega)]
      omega
  · rw [Nat.add_mod_mod]
    have h1 : rank + (s + W - rank) = s + W := by omega
    rw [h1, Nat.add_mod_right, Nat.mod_eq_of_lt hs]

/-- Reduce-scatter stores of one rank into the published buffer slot:
`streamStore128(&srcs[0][N_start + i], sums)` over the grid-stride loop
on the local shard, where `srcs[0] = buffers[(rank + 0) % kWorldSize]`
and `N_start = N_per_rank * rank`.  The position list is the shard-local
grid store list shifted by `N_start`. -/
def shiftStores (base : Nat) (ws : List (Nat × Nat)) : List (Nat × Nat) :=
  ws.map (fun w => (base + w.1, w.2))

/-- Positions and sums of one rank's reduce-scatter phase (used both for
the peer-buffer store and the local-output store, which share position
and value). -/
def twoShotScatterStores (hadd : Nat → Nat → Nat) (W rank Npr : Nat)
    (bufs : Nat → Nat → Nat) (blocks threads : Nat) : List (Nat × Nat) :=
  shiftStores (Npr * rank)
    (gridStores (fun p => rotatedLaneSum hadd W rank bufs (Npr * rank + p)) true 0 Npr
      blocks threads)

/-- The reduce-scatter stores into the peer buffers, tagged with the
target buffer index `(rank + 0) % kWorldSize`. -/
def twoShotScatterBufStores (hadd : Nat → Nat → Nat) (W rank Npr : Nat)
    (bufs : Nat → Nat → Nat) (blocks threads : Nat) : List (Nat × Nat × Nat) :=
  (twoShotScatterStores hadd W rank Npr bufs blocks threads).map
    (fun w => ((rank + 0) % W, w.1, w.2))

theorem twoShotScatterStores_sound {hadd : Nat → Nat → Nat} {W rank Npr : Nat}
    {bufs : Nat → Nat → Nat} {blocks threads : Nat} (h8 : Npr % numelPerThread = 0) :
    ∀ w ∈ twoShotScatterStores hadd W rank Npr bufs blocks threads,
      w.2 = rotatedLaneSum hadd W rank bufs w.1 ∧ Npr * rank ≤ w.1 ∧
        w.1 < Npr * (rank + 1) := by
  intro w hw
  rw [twoShotScatterStores, shiftStores] at hw
  rcases List.mem_map.1 hw with ⟨w0, hw0, rfl⟩
  obtain ⟨hv, hlt, _⟩ := gridStores_sound h8 w0 hw0
  refine ⟨by rw [hv], Nat.le_add_right _ _, ?_⟩
  have : Npr * (rank + 1) = Npr * rank + Npr := by ring
  omega

theorem twoShotScatterStores_covers {hadd : Nat → Nat → Nat} {W rank Npr : Nat}
    {bufs : Nat → Nat → Nat} {blocks threads : Nat} (hb : 0 < blocks) (ht : 0 < threads)
    (j : Nat) (hj1 : Npr * rank ≤ j) (hj2 : j < Npr * (rank + 1)) :
    ∃ w ∈ twoShotScatterStores hadd W rank Npr bufs blocks threads, w.1 = j := by
  have hj0 : j - Npr * rank < Npr := by
    have : Npr * (rank + 1) = Npr * rank + Npr := by ring
    omega
  obtain ⟨w0, hw0, hw0j⟩ := @gridStores_covers (fun p =>
    rotatedLaneSum hadd W rank bufs (Npr * rank + p)) true 0 Npr blocks threads
    hb ht (j - Npr * rank) hj0 (Or.inl rfl)
  refine ⟨(Npr * rank + w0.1, w0.2), ?_, by omega⟩
  rw [twoShotScatterStores, shiftStores]
  exact List.mem_map.2 ⟨w0, hw0, rfl⟩

/-- C6: in the two-shot reduce-scatter, every shard-sum store targets
`srcs[0] = buffers[(rank + 0) % W] = buffers[rank]` at the rank's own
shard offsets `[rank * N_per_rank, (rank + 1) * N_per_rank)`, and those
regions are pairwise disjoint across distinct ranks. -/
theorem claim_C6_scatter_targets (hadd : Nat → Nat → Nat) (W rank Npr : Nat)
    (bufs : Nat → Nat → Nat) (blocks threads : Nat) (hr : rank < W)
    (h8 : Npr % numelPerThread = 0) :
    (∀ w ∈ twoShotScatterBufStores hadd W rank Npr bufs blocks threads,
      w.1 = rank ∧ Npr * rank ≤ w.2.1 ∧ w.2.1 < Npr * (rank + 1)) ∧
    (∀ r1 r2 j, r1 < W → r2 < W → r1 ≠ r2 →
      ¬ (Npr * r1 ≤ j ∧ j < Npr * (r1 + 1) ∧ Npr * r2 ≤ j ∧ j < Npr * (r2 + 1))) := by
  constructor
  · intro w hw
    rw [twoShotScatterBufStores] at hw
    rcases List.mem_map.1 hw with ⟨w0, hw0, rfl⟩
    obtain ⟨_, hlo, hhi⟩ := twoShotScatterStores_sound h8 w0 hw0
    refine ⟨?_, hlo, hhi⟩
    simp only [Nat.add_zero]
    exact Nat.mod_eq_of_lt hr
  · rintro r1 r2 j h1 h2 hne ⟨ha, hb2, hc, hd⟩
    rcases Nat.lt_or_ge r1 r2 with hlt | hge
    · have : Npr * (r1 + 1) ≤ Npr * r2 := Nat.mul_le_mul_left _ (by omega)
      omega
    · have hlt : r2 < r1 := by omega
      have : Npr * (r2 + 1) ≤ Npr * r1 := Nat.mul_le_mul_left _ (by omega)
      omega

/-- Witness for C6: world size 2, rank 0, shard length 8 — every store
targets buffer 0 at positions 0..7, and the two shards are disjoint. -/
theorem claim_C6_scatter_targets_witness :
    (∀ w ∈ twoShotScatterBufStores Nat.add 2 0 8 (fun _ _ => 1) 1 1,
      w.1 = 0 ∧ 8 * 0 ≤ w.2.1 ∧ w.2.1 < 8 * (0 + 1)) ∧
    (∀ r1 r2 j, r1 < 2 → r2 < 2 → r1 ≠ r2 →
      ¬ (8 * r1 ≤ j ∧ j < 8 * (r1 + 1) ∧ 8 * r2 ≤ j ∧ j < 8 * (r2 + 1))) :=
  claim_C6_scatter_targets Nat.add 2 0 8 (fun _ _ => 1) 1 1 (by decide) (by decide)

/-- Apply a list of (buffer, index, payload) stores to the peer-buffer
state. -/
def applyBufWrites (ws : List (Nat × Nat × Nat)) (bufs : Nat → Nat → Nat) :
    Nat → Nat → Nat :=
  ws.foldl (fun b w => fun r j => if r = w.1 ∧ j = w.2.1 then w.2.2 else b r j) bufs

theorem applyBufWrites_not_mem (ws : List (Nat × Nat × Nat)) (bufs : Nat → Nat → Nat)
    (r j : Nat) (h : ∀ w ∈ ws, ¬ (w.1 = r ∧ w.2.1 = j)) :
    applyBufWrites ws bufs r j = bufs r j := by
  induction ws generalizing bufs with
  | nil => rfl
  | cons w ws ih =>
    simp only [applyBufWrites, List.foldl_cons] at ih ⊢
    rw [ih _ (fun w2 hw => h w2 (List.mem_cons_of_mem _ hw))]
    have hne : ¬ (r = w.1 ∧ j = w.2.1) := fun hc =>
      h w (List.mem_cons_self _ _) ⟨hc.1.symm, hc.2.symm⟩
    rw [if_neg hne]

theorem applyBufWrites_mem (ws : List (Nat × Nat × Nat)) (bufs : Nat → Nat → Nat)
    (r j : Nat) (f : Nat → Nat → Nat)
    (hval : ∀ w ∈ ws, w.1 = r → w.2.1 = j → w.2.2 = f r j)
    (hex : ∃ w ∈ ws, w.1 = r ∧ w.2.1 = j) :
    applyBufWrites ws bufs r j = f r j := by
  induction ws generalizing bufs with
  | nil => simp at hex
  | cons w ws ih =>
    simp only [applyBufWrites, List.foldl_cons] at ih ⊢
    by_cases hex2 : ∃ w ∈ ws, w.1 = r ∧ w.2.1 = j
    · exact ih _ (fun w2 hw => hval w2 (List.mem_cons_of_mem _ hw)) hex2
    · have hw1 : w.1 = r ∧ w.2.1 = j := by
        rcases hex with ⟨w0, hw0, hj0⟩
        rcases List.mem_cons.1 hw0 with rfl | hw0
        · exact hj0
        · exact absurd ⟨w0, hw0, hj0⟩ hex2
      have hnot : ∀ w2 ∈ ws, ¬ (w2.1 = r ∧ w2.2.1 = j) := fun w2 hw2 hj2 =>
        hex2 ⟨w2, hw2, hj2⟩
      have hskip := applyBufWrites_not_mem ws
        (fun r2 j2 => if r2 = w.1 ∧ j2 = w.2.1 then w.2.2 else bufs r2 j2) r j hnot
      simp only [applyBufWrites] at hskip
      rw [hskip, if_pos ⟨hw1.1.symm, hw1.2.symm⟩]
      exact hval w (List.mem_cons_self _ _) hw1.1 hw1.2

theorem twoShotScatterBufStores_sound {hadd : Nat → Nat → Nat} {W rank Npr : Nat}
    {bufs : Nat → Nat → Nat} {blocks threads : Nat} (hr : rank < W)
    (h8 : Npr % numelPerThread = 0) :
    ∀ w ∈ twoShotScatterBufStores hadd W rank Npr bufs blocks threads,
      w.1 = rank ∧ w.2.2 = rotatedLaneSum hadd W rank bufs w.2.1 ∧
        Npr * rank ≤ w.2.1 ∧ w.2.1 < Npr * (rank + 1) := by
  intro w hw
  rw [twoShotScatterBufStores] at hw
  rcases List.mem_map.1 hw with ⟨w0, hw0, rfl⟩
  obtain ⟨hv, hlo, hhi⟩ := twoShotScatterStores_sound h8 w0 hw0
  exact ⟨by simp only [Nat.add_zero]; exact Nat.mod_eq_of_lt hr, hv, hlo, hhi⟩

/-- The peer-buffer state after every rank's reduce-scatter phase. -/
def twoShotPhase1Bufs (hadd : Nat → Nat → Nat) (W Npr : Nat) (bufs : Nat → Nat → Nat)
    (blocks threads : Nat) : Nat → Nat → Nat :=
  applyBufWrites
    ((List.range W).flatMap
      (fun r => twoShotScatterBufStores hadd W r Npr bufs blocks threads))
    bufs

theorem twoShotPhase1Bufs_char (hadd : Nat → Nat → Nat) (W Npr : Nat)
    (bufs : Nat → Nat → Nat) (blocks threads : Nat) (h8 : Npr % numelPerThread = 0)
    (hb : 0 < blocks) (ht : 0 < threads) :
    (∀ q j, q < W → Npr * q ≤ j → j < Npr * (q + 1) →
      twoShotPhase1Bufs hadd W Npr bufs blocks threads q j =
        rotatedLaneSum hadd W q bufs j) ∧
    (∀ q j, (q < W → j < Npr * q ∨ Npr * (q + 1) ≤ j) →
      twoShotPhase1Bufs hadd W Npr bufs blocks threads q j = bufs q j) := by
  constructor
  · intro q j hq hlo hhi
    apply applyBufWrites_mem _ _ _ _ (fun q j => rotatedLaneSum hadd W q bufs j)
    · intro w hw hwq hwj
      rcases List.mem_flatMap.1 hw with ⟨r, hrmem, hw⟩
      rw [List.mem_range] at hrmem
      obtain ⟨hid, hv, _, _⟩ := twoShotScatterBufStores_sound hrmem h8 w hw
      rw [hv, hwj, hid.symm.trans hwq]
    · obtain ⟨w0, hw0, hw0j⟩ := @twoShotScatterStores_covers hadd W q Npr bufs
        blocks threads hb ht j hlo hhi
      refine ⟨((q + 0) % W, w0.1, w0.2), ?_, ?_, hw0j⟩
      · refine List.mem_flatMap.2 ⟨q, List.mem_range.2 hq, ?_⟩
        rw [twoShotScatterBufStores]
        exact List.mem_map.2 ⟨w0, hw0, rfl⟩
      · simp only [Nat.add_zero]
        exact Nat.mod_eq_of_lt hq
  · intro q j hout
    apply applyBufWrites_not_mem
    rintro w hw ⟨hwq, hwj⟩
    rcases List.mem_flatMap.1 hw with ⟨r, hrmem, hw⟩
    rw [List.mem_range] at hrmem
    obtain ⟨hid, _, hlo, hhi⟩ := twoShotScatterBufStores_sound hrmem h8 w hw
    have hrq : r = q := hid.symm.trans hwq
    subst hrq
    rcases hout hrmem with h | h <;> omega

/-- All-gather stores of one rank: for each shard slot `ii = 1..W-1`,
load `srcs[ii][k]` from the phase-1 buffer state `P` and store to the
caller's output at `k`, where `k` is the wrapped `size_t` index. -/
def twoShotGatherStores (W rank Npr : Nat) (P : Nat → Nat → Nat) (blocks threads : Nat) :
    List (Nat × Nat) :=
  (List.range blocks).flatMap (fun bi =>
    (List.range threads).flatMap (fun ti =>
      (loopIdxs (threads * blocks * numelPerThread) Npr
          ((threads * bi + ti) * numelPerThread)).flatMap (fun i =>
        (List.range (W - 1)).flatMap (fun iim =>
          (List.range numelPerThread).map (fun lane =>
            (twoShotGatherIdx W rank (iim + 1) i Npr + lane,
              P ((rank + (iim + 1)) % W)
                (twoShotGatherIdx W rank (iim + 1) i Npr + lane)))))))

theorem twoShotGatherStores_sound {W rank Npr : Nat} {P : Nat → Nat → Nat}
    {blocks threads : Nat} (hr : rank < W) (h8 : Npr % numelPerThread = 0)
    (h64 : W * Npr ≤ 2 ^ 64) :
    ∀ w ∈ twoShotGatherStores W rank Npr P blocks threads,
      ∃ s, s < W ∧ s ≠ rank ∧ Npr * s ≤ w.1 ∧ w.1 < Npr * (s + 1) ∧ w.2 = P s w.1 := by
  intro w hw
  have hnpt8 : numelPerThread = 8 := by decide
  rw [twoShotGatherStores] at hw
  rcases List.mem_flatMap.1 hw with ⟨bi, hbi, hw⟩
  rcases List.mem_flatMap.1 hw with ⟨ti, hti, hw⟩
  rcases List.mem_flatMap.1 hw with ⟨i, hi, hw⟩
  rcases List.mem_flatMap.1 hw with ⟨iim, hiim, hw⟩
  rcases List.mem_map.1 hw with ⟨lane, hlane, rfl⟩
  rw [List.mem_range] at hbi hti hiim
  rw [List.mem_range, hnpt8] at hlane
  have hstride : 0 < threads * blocks * numelPerThread :=
    Nat.mul_pos (Nat.mul_pos (by omega) (by omega)) (by decide)
  rw [mem_loopIdxs hstride] at hi
  rcases hi with ⟨⟨m, rfl⟩, hbound⟩
  have hW : 0 < W := by omega
  have hii1 : 1 ≤ iim + 1 := by omega
  have hii2 : iim + 1 < W := by omega
  set s := (rank + (iim + 1)) % W with hs
  have hsW : s < W := Nat.mod_lt _ hW
  have hsne : s ≠ rank := rotIdx_ne_rank W rank (iim + 1) hr hii1 hii2
  have hkeq := twoShotGatherIdx_eq W rank (iim + 1)
    ((threads * bi + ti) * numelPerThread + m * (threads * blocks * numelPerThread)) Npr
    hr hbound h64
  rw [← hs] at hkeq
  have hmod : ((threads * bi + ti) * numelPerThread +
      m * (threads * blocks * numelPerThread)) % 8 = 0 := by
    have hfac : (threads * bi + ti) * numelPerThread +
        m * (threads * blocks * numelPerThread)
        = ((threads * bi + ti) + m * (threads * blocks)) * 8 := by
      rw [hnpt8]
      ring
    rw [hfac]
    exact Nat.mul_mod_left _ _
  have h8' : Npr % 8 = 0 := by rw [hnpt8] at h8; exact h8
  refine ⟨s, hsW, hsne, ?_, ?_, rfl⟩
  · rw [hkeq]
    have : Npr * s = s * Npr := Nat.mul_comm _ _
    omega
  · rw [hkeq]
    have h1 : Npr * (s + 1) = s * Npr + Npr := by ring
    omega

theorem twoShotGatherStores_covers {W rank Npr : Nat} {P : Nat → Nat → Nat}
    {blocks threads : Nat} (hr : rank < W) (h8 : Npr % numelPerThread = 0)
    (h64 : W * Npr ≤ 2 ^ 64) (hb : 0 < blocks) (ht : 0 < threads) :
    ∀ s j, s < W → s ≠ rank → Npr * s ≤ j → j < Npr * (s + 1) →
      ∃ w ∈ twoShotGatherStores W rank Npr P blocks threads, w.1 = j := by
  intro s j hsW hsne hlo hhi
  have hW : 0 < W := by omega
  have hj0 : j - Npr * s < Npr := by
    have : Npr * (s + 1) = Npr * s + Npr := by ring
    omega
  obtain ⟨hii1, hii2, hiis⟩ := rotIdx_surj W rank s hr hsW hsne
  obtain ⟨bi, ti, hbi, hti, hmem⟩ :=
    chunk_covered blocks threads Npr ((j - Npr * s) / numelPerThread) hb ht
      (lt_of_le_of_lt (Nat.div_mul_le_self _ _) hj0)
  have hchunklt : (j - Npr * s) / numelPerThread * numelPerThread < Npr :=
    lt_of_le_of_lt (Nat.div_mul_le_self _ _) hj0
  have hkeq := twoShotGatherIdx_eq W rank ((s + W - rank) % W)
    ((j - Npr * s) / numelPerThread * numelPerThread) Npr hr hchunklt h64
  rw [hiis] at hkeq
  refine ⟨(twoShotGatherIdx W rank ((s + W - rank) % W - 1 + 1)
      ((j - Npr * s) / numelPerThread * numelPerThread) Npr + (j - Npr * s) % numelPerThread,
      P ((rank + ((s + W - rank) % W - 1 + 1)) % W)
        (twoShotGatherIdx W rank ((s + W - rank) % W - 1 + 1)
          ((j - Npr * s) / numelPerThread * numelPerThread) Npr +
          (j - Npr * s) % numelPerThread)), ?_, ?_⟩
  · rw [twoShotGatherStores]
    refine List.mem_flatMap.2 ⟨bi, List.mem_range.2 hbi, ?_⟩
    refine List.mem_flatMap.2 ⟨ti, List.mem_range.2 hti, ?_⟩
    refine List.mem_flatMap.2 ⟨(j - Npr * s) / numelPerThread * numelPerThread, hmem, ?_⟩
    refine List.mem_flatMap.2 ⟨(s + W - rank) % W - 1, List.mem_range.2 (by omega), ?_⟩
    exact List.mem_map.2
      ⟨(j - Npr * s) % numelPerThread,
        List.mem_range.2 (Nat.mod_lt _ (by decide)), rfl⟩
  · have hsub : (s + W - rank) % W - 1 + 1 = (s + W - rank) % W := by omega
    rw [hsub, hkeq]
    have hsplit := Nat.div_add_mod' (j - Npr * s) numelPerThread
    have hcomm : s * Npr = Npr * s := Nat.mul_comm _ _
    omega

/-- Effect of `twoShotAllReduceKernel` on the output array it was
launched with: the reduce-scatter writes of the local shard, then the
all-gather copies of the remaining shards read from the phase-1 buffer
state `P`. -/
def twoShotKernelOut (hadd : Nat → Nat → Nat) (W rank Npr : Nat)
    (bufs P : Nat → Nat → Nat) (blocks threads : Nat) (output : Nat → Nat) : Nat → Nat :=
  applyWrites (twoShotGatherStores W rank Npr P blocks threads)
    (applyWrites (twoShotScatterStores hadd W rank Npr bufs blocks threads) output)

theorem shard_unique {Npr s j : Nat} (hNpr : 0 < Npr) (hlo : Npr * s ≤ j)
    (hhi : j < Npr * (s + 1)) : j / Npr = s := by
  apply Nat.div_eq_of_lt_le
  · rw [Nat.mul_comm]
    exact hlo
  · rw [Nat.succ_mul, Nat.mul_comm]
    have : Npr * (s + 1) = Npr * s + Npr := by ring
    omega

theorem twoShotKernelOut_char (hadd : Nat → Nat → Nat) (W rank Npr : Nat)
    (bufs : Nat → Nat → Nat) (blocks threads : Nat) (output : Nat → Nat)
    (hr : rank < W) (h8 : Npr % numelPerThread = 0) (h64 : W * Npr ≤ 2 ^ 64)
    (hb : 0 < blocks) (ht : 0 < threads) :
    (∀ j, j < W * Npr →
      twoShotKernelOut hadd W rank Npr bufs
        (twoShotPhase1Bufs hadd W Npr bufs blocks threads) blocks threads output j =
        rotatedLaneSum hadd W (j / Npr) bufs j) ∧
    (∀ j, W * Npr ≤ j →
      twoShotKernelOut hadd W rank Npr bufs
        (twoShotPhase1Bufs hadd W Npr bufs blocks threads) blocks threads output j =
        output j) := by
  have hchar := twoShotPhase1Bufs_char hadd W Npr bufs blocks threads h8 hb ht
  constructor
  · intro j hj
    have hNpr : 0 < Npr := by
      rcases Nat.eq_zero_or_pos Npr with h | h
      · subst h
        simp at hj
      · exact h
    have hdm := Nat.div_add_mod j Npr
    have hjm : j % Npr < Npr := Nat.mod_lt _ hNpr
    have hsW : j / Npr < W := by
      rw [Nat.div_lt_iff_lt_mul hNpr]
      have : W * Npr = Npr * W := Nat.mul_comm _ _
      omega
    have hlo : Npr * (j / Npr) ≤ j := by omega
    have hhi : j < Npr * (j / Npr + 1) := by
      have : Npr * (j / Npr + 1) = Npr * (j / Npr) + Npr := by ring
      omega
    rw [twoShotKernelOut]
    by_cases hrank : j / Npr = rank
    · have hgather : ∀ w ∈ twoShotGatherStores W rank Npr
          (twoShotPhase1Bufs hadd W Npr bufs blocks threads) blocks threads, w.1 ≠ j := by
        intro w hw hwj
        obtain ⟨s, hsW2, hsne, hslo, hshi, _⟩ :=
          twoShotGatherStores_sound hr h8 h64 w hw
        rw [hwj] at hslo hshi
        exact hsne ((shard_unique hNpr hslo hshi).symm.trans hrank)
      rw [applyWrites_not_mem _ _ _ hgather, hrank]
      apply applyWrites_mem _ _ _ (fun j => rotatedLaneSum hadd W rank bufs j)
      · intro w hw hwj
        obtain ⟨hv, _, _⟩ := twoShotScatterStores_sound h8 w hw
        rw [hv, hwj]
      · exact twoShotScatterStores_covers hb ht j (hrank ▸ hlo) (hrank ▸ hhi)
    · have hval : ∀ w ∈ twoShotGatherStores W rank Npr
          (twoShotPhase1Bufs hadd W Npr bufs blocks threads) blocks threads, w.1 = j →
          w.2 = twoShotPhase1Bufs hadd W Npr bufs blocks threads (j / Npr) j := by
        intro w hw hwj
        obtain ⟨s, hsW2, hsne, hslo, hshi, hv⟩ :=
          twoShotGatherStores_sound hr h8 h64 w hw
        rw [hwj] at hslo hshi hv
        rw [hv, shard_unique hNpr hslo hshi]
      have hex := twoShotGatherStores_covers (P := twoShotPhase1Bufs hadd W Npr bufs
        blocks threads) hr h8 h64 hb ht (j / Npr) j hsW hrank hlo hhi
      rw [applyWrites_mem _ _ _ _ hval hex]
      exact hchar.1 (j / Npr) j hsW hlo hhi
  · intro j hj
    rw [twoShotKernelOut]
    rw [applyWrites_not_mem, applyWrites_not_mem]
    · intro w hw hwj
      obtain ⟨_, _, hhi⟩ := twoShotScatterStores_sound h8 w hw
      have h1 : Npr * (rank + 1) ≤ Npr * W := Nat.mul_le_mul_left _ (by omega)
      have h2 : Npr * W = W * Npr := Nat.mul_comm _ _
      omega
    · intro w hw hwj
      obtain ⟨s, hsW2, _, _, hshi, _⟩ := twoShotGatherStores_sound hr h8 h64 w hw
      have h1 : Npr * (s + 1) ≤ Npr * W := Nat.mul_le_mul_left _ (by omega)
      have h2 : Npr * W = W * Npr := Nat.mul_comm _ _
      omega

/-- Host `twoShotAllReduce`: aligns the length to
`worldSize * numelPerWarp`, allocates an aligned scratch output when the
input is not already aligned (`input.new_empty(N_aligned)`, whose
initial contents are arbitrary), launches the kernel, and copies the
`numel`-length prefix back into the caller's buffer when a scratch
output was used. -/
def twoShotAllReduce (hadd : Nat → Nat → Nat) (kMaxIntraNodeSize W rank N : Nat)
    (bufs : Nat → Nat → Nat) (input scratch : Nat → Nat) : Except Err (Nat → Nat) :=
  let numelPerWarp := kBytesPerThread / 2 * kWarpSize
  let N_aligned := alignUp N (W * numelPerWarp)
  let N_per_rank := N_aligned / W
  if ¬ N_aligned ≤ kMaxIntraNodeSize / 2 then Except.error Err.checkFailed
  else
    match getLaunchConfig N_per_rank 2 with
    | Except.error e => Except.error e
    | Except.ok (blocks, threads) =>
      let staged := stageRank bufs rank input N
      let P := twoShotPhase1Bufs hadd W N_per_rank staged blocks threads
      if 2 ≤ W ∧ W ≤ 8 then
        if N_aligned = N then
          Except.ok (twoShotKernelOut hadd W rank N_per_rank staged P blocks threads input)
        else
          Except.ok (fun j =>
            if j < N then
              twoShotKernelOut hadd W rank N_per_rank staged P blocks threads scratch j
            else input j)
      else Except.ok input

/-- Characterization of the two-shot host call: it succeeds, position
`j < N` carries the shard owner's rotated bf16 sum over the staged
buffers, and positions at or beyond `N` keep the caller's bytes. -/
theorem twoShotAllReduce_char (hadd : Nat → Nat → Nat) (kMax W rank N : Nat)
    (bufs : Nat → Nat → Nat) (input scratch : Nat → Nat) (hW1 : 2 ≤ W) (hW2 : W ≤ 8)
    (hr : rank < W) (hN : 0 < N)
    (h32 : N + W * (kBytesPerThread / 2 * kWarpSize) ≤ 2 ^ 32)
    (hcap : alignUp N (W * (kBytesPerThread / 2 * kWarpSize)) ≤ kMax / 2) :
    ∃ out, twoShotAllReduce hadd kMax W rank N bufs input scratch = Except.ok out ∧
      (∀ j, j < N →
        out j = rotatedLaneSum hadd W
          (j / (alignUp N (W * (kBytesPerThread / 2 * kWarpSize)) / W))
          (stageRank bufs rank input N) j) ∧
      (∀ j, N ≤ j → out j = input j) := by
  have hnpw : (0 : Nat) < kBytesPerThread / 2 * kWarpSize := by decide
  have hWnpw : 0 < W * (kBytesPerThread / 2 * kWarpSize) := by positivity
  have hWnpw32 : W * (kBytesPerThread / 2 * kWarpSize) < 2 ^ 32 := by
    calc W * (kBytesPerThread / 2 * kWarpSize) ≤ 8 * (kBytesPerThread / 2 * kWarpSize) :=
          Nat.mul_le_mul_right _ hW2
      _ < 2 ^ 32 := by decide
  obtain ⟨hle, hmod, hlt⟩ := alignUp_spec N (W * (kBytesPerThread / 2 * kWarpSize)) hWnpw
    (by omega) hWnpw32
  set N_aligned := alignUp N (W * (kBytesPerThread / 2 * kWarpSize)) with hNa
  have hdvd : W * (kBytesPerThread / 2 * kWarpSize) ∣ N_aligned :=
    Nat.dvd_of_mod_eq_zero hmod
  have hWdvd : W ∣ N_aligned := (Dvd.intro _ rfl).trans hdvd
  set Npr := N_aligned / W with hNpr
  have hWNpr : W * Npr = N_aligned := Nat.mul_div_cancel' hWdvd
  have hNprWarp : Npr % (kBytesPerThread / 2 * kWarpSize) = 0 := by
    rcases hdvd with ⟨c, hc⟩
    have : Npr = kBytesPerThread / 2 * kWarpSize * c := by
      rw [hNpr, hc, Nat.mul_assoc, Nat.mul_div_cancel_left _ (by omega : 0 < W)]
    rw [this, Nat.mul_comm]
    exact Nat.mul_mod_left _ _
  have hNprpos : 0 < Npr := by
    have h1 : 0 < N_aligned := by omega
    rcases Nat.eq_zero_or_pos Npr with h | h
    · rw [← hWNpr, h, Nat.mul_zero] at h1
      omega
    · exact h
  have hNpr8 : Npr % numelPerThread = 0 := by
    have h1 : numelPerThread ∣ kBytesPerThread / 2 * kWarpSize := by decide
    rcases h1.trans (Nat.dvd_of_mod_eq_zero hNprWarp) with ⟨c, hc⟩
    rw [hc]
    exact Nat.mul_mod_right _ _
  have hNprle : Npr ≤ W * Npr := Nat.le_mul_of_pos_left _ (by omega)
  obtain ⟨B, T, hok, hB, hT, _⟩ := getLaunchConfig_ok Npr 2 (by decide) (by decide)
    hNprpos hNprWarp (by omega)
  have h64 : W * Npr ≤ 2 ^ 64 := by
    rw [hWNpr]
    have : (2 : Nat) ^ 32 ≤ 2 ^ 64 := by norm_num
    omega
  obtain ⟨hinAligned, houtside⟩ := twoShotKernelOut_char hadd W rank Npr
    (stageRank bufs rank input N) B T input hr hNpr8 h64 hB hT
  obtain ⟨hinScr, houtScr⟩ := twoShotKernelOut_char hadd W rank Npr
    (stageRank bufs rank input N) B T scratch hr hNpr8 h64 hB hT
  rw [twoShotAllReduce]
  simp only [← hNa, ← hNpr, hok, if_neg (by omega : ¬ ¬ N_aligned ≤ kMax / 2),
    if_pos (⟨hW1, hW2⟩ : 2 ≤ W ∧ W ≤ 8)]
  by_cases hali : N_aligned = N
  · rw [if_pos hali]
    refine ⟨_, rfl, ?_, ?_⟩
    · intro j hj
      exact hinAligned j (by omega)
    · intro j hj
      exact houtside j (by omega)
  · rw [if_neg hali]
    refine ⟨_, rfl, ?_, ?_⟩
    · intro j hj
      simp only [if_pos hj]
      exact hinScr j (by omega)
    · intro j hj
      simp only [if_neg (by omega : ¬ j < N)]

/-! ### Hybrid cube mesh all-reduce (kernel lines 337-411, host 609-652)

Each rank's role row `hcmInfo` lists its three direct neighbors and its
relay (`hcm[X][0..3]`).  Phase A sums self plus the three neighbors and
parks the partial in the relay scratch region at element offset
`kMaxIntraNodeSize / 2` of the rank's own buffer
(`localRelay = buffers[rank] + kMaxIntraNodeSize / 2`); after the relay
handshake, phase B combines the local partial with the relay peer's
partial and writes the caller's buffer under the tail guard.  Phase A
loads the staged data region `[0, N_aligned)` and stores only at
`scratchOff + [0, N_aligned)`; the host size check keeps the two
disjoint, so phase A is modelled as reading the pre-phase buffers. -/

/-- The 4-way partial of phase A: `srcs = {buffers[rank],
buffers[hcmInfo[0]], buffers[hcmInfo[1]], buffers[hcmInfo[2]]}`, summed
from the zero payload. -/
def hcmLaneSum (hadd : Nat → Nat → Nat) (q n0 n1 n2 : Nat) (bufs : Nat → Nat → Nat)
    (j : Nat) : Nat :=
  [bufs q j, bufs n0 j, bufs n1 j, bufs n2 j].foldl hadd 0

/-- Phase-A stores of rank `q` into its own relay scratch region. -/
def hcmPhaseAStores (hadd : Nat → Nat → Nat) (scratchOff q n0 n1 n2 N_aligned : Nat)
    (bufs : Nat → Nat → Nat) (blocks threads : Nat) : List (Nat × Nat × Nat) :=
  (shiftStores scratchOff
    (gridStores (hcmLaneSum hadd q n0 n1 n2 bufs) true 0 N_aligned blocks threads)).map
    (fun w => (q, w.1, w.2))

/-- Peer-buffer state after every rank's phase A. -/
def hcmPhaseABufs (hadd : Nat → Nat → Nat) (scratchOff N_aligned W : Nat)
    (info : Nat → Nat × Nat × Nat × Nat) (bufs : Nat → Nat → Nat)
    (blocks threads : Nat) : Nat → Nat → Nat :=
  applyBufWrites
    ((List.range W).flatMap (fun q =>
      hcmPhaseAStores hadd scratchOff q (info q).1 (info q).2.1 (info q).2.2.1 N_aligned
        bufs blocks threads))
    bufs

theorem hcmPhaseABufs_char (hadd : Nat → Nat → Nat) (scratchOff N_aligned W : Nat)
    (info : Nat → Nat × Nat × Nat × Nat) (bufs : Nat → Nat → Nat) (blocks threads : Nat)
    (h8 : N_aligned % numelPerThread = 0) (hb : 0 < blocks) (ht : 0 < threads) :
    ∀ q j, q < W → j < N_aligned →
      hcmPhaseABufs hadd scratchOff N_aligned W info bufs blocks threads q
          (scratchOff + j) =
        hcmLaneSum hadd q (info q).1 (info q).2.1 (info q).2.2.1 bufs j := by
  intro q j hq hj
  have hval : ∀ w ∈ (List.range W).flatMap (fun q2 =>
      hcmPhaseAStores hadd scratchOff q2 (info q2).1 (info q2).2.1 (info q2).2.2.1
        N_aligned bufs blocks threads),
      w.1 = q → w.2.1 = scratchOff + j →
      w.2.2 = (fun q2 p => hcmLaneSum hadd q2 (info q2).1 (info q2).2.1 (info q2).2.2.1
        bufs (p - scratchOff)) q (scratchOff + j) := by
    intro w hw hwq hwj
    rcases List.mem_flatMap.1 hw with ⟨r, hrmem, hw⟩
    rw [hcmPhaseAStores] at hw
    rcases List.mem_map.1 hw with ⟨w1, hw1, hww⟩
    rw [shiftStores] at hw1
    rcases List.mem_map.1 hw1 with ⟨w0, hw0, hww1⟩
    subst hww1
    subst hww
    obtain ⟨hv, hlt, _⟩ := gridStores_sound h8 w0 hw0
    simp only at hwq hwj ⊢
    subst hwq
    have hp : w0.1 = j := by omega
    rw [hv, hp]
    simp only [Nat.add_sub_cancel_left]
  have hex : ∃ w ∈ (List.range W).flatMap (fun q2 =>
      hcmPhaseAStores hadd scratchOff q2 (info q2).1 (info q2).2.1 (info q2).2.2.1
        N_aligned bufs blocks threads), w.1 = q ∧ w.2.1 = scratchOff + j := by
    obtain ⟨w0, hw0, hw0j⟩ := @gridStores_covers
      (hcmLaneSum hadd q (info q).1 (info q).2.1 (info q).2.2.1 bufs)
      true 0 N_aligned blocks threads hb ht j hj (Or.inl rfl)
    refine ⟨(q, scratchOff + w0.1, w0.2), ?_, rfl, by simp only [hw0j]⟩
    refine List.mem_flatMap.2 ⟨q, List.mem_range.2 hq, ?_⟩
    rw [hcmPhaseAStores]
    refine List.mem_map.2 ⟨(scratchOff + w0.1, w0.2), ?_, rfl⟩
    rw [shiftStores]
    exact List.mem_map.2 ⟨w0, hw0, rfl⟩
  rw [hcmPhaseABufs, applyBufWrites_mem _ _ _ _
    (fun q2 p => hcmLaneSum hadd q2 (info q2).1 (info q2).2.1 (info q2).2.2.1 bufs
      (p - scratchOff)) hval hex]
  simp only [Nat.add_sub_cancel_left]

/-- Effect of `hybridCubeMeshAllReduceKernel` on the caller's buffer:
phase B loads the local partial from the own scratch region and the
remote partial from the relay's scratch region, adds them
(`localSum = add(localSum, remoteSum)`), and stores under the tail
guard. -/
def hcmKernelOut (hadd : Nat → Nat → Nat) (W rank scratchOff : Nat) (aligned : Bool)
    (info : Nat → Nat × Nat × Nat × Nat) (bufs : Nat → Nat → Nat)
    (N N_aligned blocks threads : Nat) (input : Nat → Nat) : Nat → Nat :=
  let A := hcmPhaseABufs hadd scratchOff N_aligned W info bufs blocks threads
  let relayRank := (info rank).2.2.2
  applyWrites
    (gridStores (fun j => hadd (A rank (scratchOff + j)) (A relayRank (scratchOff + j)))
      aligned N N_aligned blocks threads)
    input

/-- Host `hybridCubeMeshAllReduce`. -/
def hybridCubeMeshAllReduce (hadd : Nat → Nat → Nat) (kMaxIntraNodeSize W rank N : Nat)
    (info : Nat → Nat × Nat × Nat × Nat) (bufs : Nat → Nat → Nat) (input : Nat → Nat) :
    Except Err (Nat → Nat) :=
  let numelPerWarp := kBytesPerThread / 2 * kWarpSize
  let N_aligned := alignUp N numelPerWarp
  if ¬ N_aligned ≤ kMaxIntraNodeSize / 2 then Except.error Err.checkFailed
  else
    match getLaunchConfig N_aligned 2 with
    | Except.error e => Except.error e
    | Except.ok (blocks, threads) =>
      let staged := stageRank bufs rank input N
      if N_aligned = N then
        Except.ok (hcmKernelOut hadd W rank (kMaxIntraNodeSize / 2) true info staged
          N N_aligned blocks threads input)
      else
        Except.ok (hcmKernelOut hadd W rank (kMaxIntraNodeSize / 2) false info staged
          N N_aligned blocks threads input)

/-- Characterization of the hybrid-cube-mesh host call. -/
theorem hcmAllReduce_char (hadd : Nat → Nat → Nat) (kMax W rank N : Nat)
    (info : Nat → Nat × Nat × Nat × Nat) (bufs : Nat → Nat → Nat) (input : Nat → Nat)
    (hr : rank < W) (hrel : (info rank).2.2.2 < W) (hN : 0 < N)
    (h32 : N + kBytesPerThread / 2 * kWarpSize ≤ 2 ^ 32)
    (hcap : alignUp N (kBytesPerThread / 2 * kWarpSize) ≤ kMax / 2) :
    ∃ out, hybridCubeMeshAllReduce hadd kMax W rank N info bufs input = Except.ok out ∧
      (∀ j, j < N →
        out j = hadd
          (hcmLaneSum hadd rank (info rank).1 (info rank).2.1 (info rank).2.2.1
            (stageRank bufs rank input N) j)
          (hcmLaneSum hadd ((info rank).2.2.2) (info ((info rank).2.2.2)).1
            (info ((info rank).2.2.2)).2.1 (info ((info rank).2.2.2)).2.2.1
            (stageRank bufs rank input N) j)) ∧
      (∀ j, N ≤ j → out j = input j) := by
  have hnpw : (0 : Nat) < kBytesPerThread / 2 * kWarpSize := by decide
  obtain ⟨hle, hmod, hlt⟩ := alignUp_spec N (kBytesPerThread / 2 * kWarpSize) hnpw
    (by omega) (by decide)
  have hmod8 : alignUp N (kBytesPerThread / 2 * kWarpSize) % numelPerThread = 0 := by
    have h1 : numelPerThread ∣ kBytesPerThread / 2 * kWarpSize := by decide
    rcases h1.trans (Nat.dvd_of_mod_eq_zero hmod) with ⟨c, hc⟩
    rw [hc]
    exact Nat.mul_mod_right _ _
  obtain ⟨B, T, hok, hB, hT, _⟩ := getLaunchConfig_ok
    (alignUp N (kBytesPerThread / 2 * kWarpSize)) 2 (by decide) (by decide)
    (by omega) hmod (by omega)
  have hAchar := hcmPhaseABufs_char hadd (kMax / 2)
    (alignUp N (kBytesPerThread / 2 * kWarpSize)) W info
    (stageRank bufs rank input N) B T hmod8 hB hT
  rw [hybridCubeMeshAllReduce]
  simp only [hok, if_neg (by omega : ¬ ¬ alignUp N (kBytesPerThread / 2 * kWarpSize) ≤
    kMax / 2)]
  by_cases hali : alignUp N (kBytesPerThread / 2 * kWarpSize) = N
  · rw [if_pos hali]
    refine ⟨_, rfl, ?_, ?_⟩
    · intro j hj
      simp only [hcmKernelOut]
      rw [(applyGrid_char _ true N _ B T input hmod8 hB hT j).1 ⟨by omega, Or.inl rfl⟩,
        hAchar rank j hr (by omega), hAchar _ j hrel (by omega)]
    · intro j hj
      simp only [hcmKernelOut]
      exact (applyGrid_char _ true N _ B T input hmod8 hB hT j).2 (Or.inl (by omega))
  · rw [if_neg hali]
    refine ⟨_, rfl, ?_, ?_⟩
    · intro j hj
      simp only [hcmKernelOut]
      rw [(applyGrid_char _ false N _ B T input hmod8 hB hT j).1 ⟨by omega, Or.inr hj⟩,
        hAchar rank j hr (by omega), hAchar _ j hrel (by omega)]
    · intro j hj
      simp only [hcmKernelOut]
      exact (applyGrid_char _ false N _ B T input hmod8 hB hT j).2 (Or.inr ⟨rfl, hj⟩)

/-- C5: for every input whose element count is not a multiple of
`warpSize × elementsPerThread`, each of the three all-reduce paths
leaves every element of the caller's buffer at positions `≥ numel`
unchanged, while positions `< numel` hold the algorithm's sum: one-shot
and HCM write the final fragment element-by-element under the
`i + ii < N` guard, and two-shot runs on an aligned scratch output and
copies only the `numel`-length prefix back. -/
theorem claim_C5_tail_handling (hadd : Nat → Nat → Nat) (kMax W rank N : Nat)
    (bufs : Nat → Nat → Nat) (input scratch : Nat → Nat)
    (info : Nat → Nat × Nat × Nat × Nat) (hW1 : 2 ≤ W) (hW2 : W ≤ 8) (hr : rank < W)
    (hrel : (info rank).2.2.2 < W) (hN : 0 < N)
    (hun : N % (kBytesPerThread / 2 * kWarpSize) ≠ 0)
    (h32 : N + W * (kBytesPerThread / 2 * kWarpSize) ≤ 2 ^ 32)
    (hcap1 : alignUp N (kBytesPerThread / 2 * kWarpSize) ≤ kMax / 2)
    (hcap2 : alignUp N (W * (kBytesPerThread / 2 * kWarpSize)) ≤ kMax / 2) :
    (∃ out, oneShotAllReduce hadd kMax W rank N bufs input = Except.ok out ∧
      (∀ j, N ≤ j → out j = input j) ∧
      (∀ j, j < N →
        out j = rotatedLaneSum hadd W rank (stageRank bufs rank input N) j)) ∧
    (∃ out, twoShotAllReduce hadd kMax W rank N bufs input scratch = Except.ok out ∧
      (∀ j, N ≤ j → out j = input j) ∧
      (∀ j, j < N →
        out j = rotatedLaneSum hadd W
          (j / (alignUp N (W * (kBytesPerThread / 2 * kWarpSize)) / W))
          (stageRank bufs rank input N) j)) ∧
    (∃ out, hybridCubeMeshAllReduce hadd kMax W rank N info bufs input = Except.ok out ∧
      (∀ j, N ≤ j → out j = input j) ∧
      (∀ j, j < N →
        out j = hadd
          (hcmLaneSum hadd rank (info rank).1 (info rank).2.1 (info rank).2.2.1
            (stageRank bufs rank input N) j)
          (hcmLaneSum hadd ((info rank).2.2.2) (info ((info rank).2.2.2)).1
            (info ((info rank).2.2.2)).2.1 (info ((info rank).2.2.2)).2.2.1
            (stageRank bufs rank input N) j))) := by
  have h32a : N + kBytesPerThread / 2 * kWarpSize ≤ 2 ^ 32 := by
    have : kBytesPerThread / 2 * kWarpSize ≤ W * (kBytesPerThread / 2 * kWarpSize) :=
      Nat.le_mul_of_pos_left _ (by omega)
    omega
  refine ⟨?_, ?_, ?_⟩
  · obtain ⟨out, hok, hin, hout⟩ := oneShotAllReduce_char hadd kMax W rank N bufs input
      hW1 hW2 hN h32a hcap1
    exact ⟨out, hok, hout, hin⟩
  · obtain ⟨out, hok, hin, hout⟩ := twoShotAllReduce_char hadd kMax W rank N bufs input
      scratch hW1 hW2 hr hN h32 hcap2
    exact ⟨out, hok, hout, hin⟩
  · obtain ⟨out, hok, hin, hout⟩ := hcmAllReduce_char hadd kMax W rank N info bufs input
      hr hrel hN h32a hcap1
    exact ⟨out, hok, hout, hin⟩

/-- Witness for C5 at `N = 7`, world size 2: all three paths succeed,
keep positions 7 and beyond intact, and fill the prefix. -/
theorem claim_C5_tail_handling_witness :
    (∃ out, oneShotAllReduce Nat.add 20971520 2 0 7 (fun _ _ => 3) (fun j => j)
        = Except.ok out ∧
      (∀ j, 7 ≤ j → out j = j) ∧
      (∀ j, j < 7 → out j = rotatedLaneSum Nat.add 2 0
          (stageRank (fun _ _ => 3) 0 (fun j => j) 7) j)) ∧
    (∃ out, twoShotAllReduce Nat.add 20971520 2 0 7 (fun _ _ => 3) (fun j => j)
        (fun _ => 99) = Except.ok out ∧
      (∀ j, 7 ≤ j → out j = j) ∧
      (∀ j, j < 7 → out j = rotatedLaneSum Nat.add 2
          (j / (alignUp 7 (2 * (kBytesPerThread / 2 * kWarpSize)) / 2))
          (stageRank (fun _ _ => 3) 0 (fun j => j) 7) j)) ∧
    (∃ out, hybridCubeMeshAllReduce Nat.add 20971520 2 0 7 (fun _ => (0, 0, 0, 1))
        (fun _ _ => 3) (fun j => j) = Except.ok out ∧
      (∀ j, 7 ≤ j → out j = j) ∧
      (∀ j, j < 7 → out j = Nat.add
          (hcmLaneSum Nat.add 0 0 0 0 (stageRank (fun _ _ => 3) 0 (fun j => j) 7) j)
          (hcmLaneSum Nat.add 1 0 0 0 (stageRank (fun _ _ => 3) 0 (fun j => j) 7) j))) :=
  claim_C5_tail_handling Nat.add 20971520 2 0 7 (fun _ _ => 3) (fun j => j) (fun _ => 99)
    (fun _ => (0, 0, 0, 1)) (by decide) (by decide) (by decide) (by decide) (by decide)
    (by decide) (by decide) (by decide) (by decide)

/-! ### Topology analyzer: getHybridCubeMesh (lines 282-335)

The role table `HybridCubeMesh` is an 8 × 4 array of `int` initialized
to −1.  `neighbors[i]` is an `std::unordered_set<size_t>` populated by
ascending inserts; with libstdc++ such a set is iterated in descending
key order (reverse insertion order, preserved by `erase`), which is the
candidate order this embedding uses.  `neighborMasks[i]` is the same
set as a bitmask. -/

/-- Table read `hcm[i][k]` with the −1 sentinel. -/
def tget (t : List (List Int)) (i k : Nat) : Int := (t.getD i []).getD k (-1)

/-- Table write `hcm[i][k] = v`. -/
def tset (t : List (List Int)) (i k : Nat) (v : Int) : List (List Int) :=
  t.set i ((t.getD i []).set k v)

/-- Mask-list read. -/
def mget (c : List Nat) (i : Nat) : Nat := c.getD i 0

/-- Mask-list write. -/
def mset (c : List Nat) (i : Nat) (v : Nat) : List Nat := c.set i v

/-- Erase one element from a neighbor set held as a bitmask: a no-op
when the element is absent, exactly like `unordered_set::erase`. -/
def clearBit (m j : Nat) : Nat := if m.testBit j then m ^^^ (1 <<< j) else m

/-- Row `i` of `neighborMasks`, built from `nvlMesh[i][j] > 0`. -/
def nvlMaskRow (nvl : Nat → Nat → Nat) (i : Nat) : Nat :=
  (List.range kMaxDevices).foldl (fun m j => if 0 < nvl i j then m ||| (1 <<< j) else m) 0

/-- Size of a neighbor set held as a bitmask (`neighbors[i].size()`). -/
def bitCount (m : Nat) : Nat :=
  ((List.range kMaxDevices).filter (fun j => m.testBit j)).length

/-- The `relayNeighbors` vector: ranks whose neighbor masks do not
intersect rank `i`'s. -/
def relayCandidates (masks : List Nat) (i : Nat) : List Nat :=
  (List.range kMaxDevices).filter (fun j => mget masks i &&& mget masks j = 0)

/-- Analyzer state: the partially filled role table and the mutable
neighbor sets. -/
structure HcmState where
  hcm : List (List Int)
  cur : List Nat
deriving DecidableEq, Repr

/-- One iteration of the recognition loop at rank `i`: check the
neighbor count, require a unique relay, record it in column 3 and erase
it from the neighbor set. -/
def recogStep (masks : List Nat) (st : HcmState) (i : Nat) : Option HcmState :=
  if bitCount (mget masks i) ≠ 4 then none
  else
    match relayCandidates masks i with
    | [rel] =>
      some ⟨tset st.hcm i 3 (Int.ofNat rel), mset st.cur i (clearBit (mget st.cur i) rel)⟩
    | _ => none

/-- The full recognition pass over ranks 0..7. -/
def recogAll (masks : List Nat) : Option HcmState :=
  (List.range kMaxDevices).foldl (fun o i => o.bind (fun st => recogStep masks st i))
    (some ⟨List.replicate kMaxDevices (List.replicate 4 (-1)), masks⟩)

/-- The candidate scan `for (size_t j : neighbors[i]) if (hcm[j][k] == -1)`
in descending set order. -/
def pickJ (hcm : List (List Int)) (k cur : Nat) : Option Nat :=
  (List.range kMaxDevices).reverse.find? (fun j => cur.testBit j && tget hcm j k == -1)

/-- One greedy iteration at `(i, k)`: pair with the first available
neighbor (writing both directions), assert the slot is filled, erase
the partner from the neighbor set. -/
def greedyCol (st : HcmState) (i k : Nat) : Option HcmState :=
  let st1 :=
    match pickJ st.hcm k (mget st.cur i) with
    | some j =>
      { st with hcm := tset (tset st.hcm i k (Int.ofNat j)) j k (Int.ofNat i) }
    | none => st
  if tget st1.hcm i k = -1 then none
  else
    some { st1 with
      cur := mset st1.cur i (clearBit (mget st1.cur i) (tget st1.hcm i k).toNat) }

/-- The three greedy columns of rank `i`. -/
def greedyRank (st : HcmState) (i : Nat) : Option HcmState :=
  (List.range 3).foldl (fun o k => o.bind (fun st2 => greedyCol st2 i k)) (some st)

/-- The full greedy pass over ranks 0..7. -/
def greedyAll (st : HcmState) : Option HcmState :=
  (List.range kMaxDevices).foldl (fun o i => o.bind (fun st2 => greedyRank st2 i))
    (some st)

/-- Result of `getHybridCubeMesh`: `std::nullopt`, a thrown
`TORCH_CHECK` failure, or the completed table. -/
inductive HcmResult where
  | unsupported : HcmResult
  | checkFailed : HcmResult
  | ok : List (List Int) → HcmResult
deriving DecidableEq, Repr

/-- Source `getHybridCubeMesh`. -/
def getHybridCubeMesh (nvl : Nat → Nat → Nat) : HcmResult :=
  let masks := (List.range kMaxDevices).map (nvlMaskRow nvl)
  match recogAll masks with
  | none => HcmResult.unsupported
  | some st =>
    match greedyAll st with
    | none => HcmResult.checkFailed
    | some st2 => HcmResult.ok st2.hcm

/-- An adjacency matrix given by one bitmask row per rank. -/
def mkNvl (rows : List Nat) : Nat → Nat → Nat :=
  fun i j => if (rows.getD i 0).testBit j then 1 else 0

/-! ### Generic list-table and bit lemmas -/

/-- Reading back a written list cell. -/
theorem getD_set_self {α : Type} (l : List α) (i : Nat) (v d : α) (h : i < l.length) :
    (l.set i v).getD i d = v := by
  rw [List.getD_eq_getElem?_getD, List.getElem?_set_self h]
  rfl

/-- Reading an untouched list cell after a write. -/
theorem getD_set_ne {α : Type} (l : List α) (i : Nat) (v d : α) (x : Nat) (h : x ≠ i) :
    (l.set i v).getD x d = l.getD x d := by
  rw [List.getD_eq_getElem?_getD, List.getElem?_set_ne (Ne.symm h),
    ← List.getD_eq_getElem?_getD]

/-- Reading a cell of a replicated list. -/
theorem getD_replicate {α : Type} (n : Nat) (a d : α) (i : Nat) :
    (List.replicate n a).getD i d = if i < n then a else d := by
  rw [List.getD_eq_getElem?_getD, List.getElem?_replicate]
  split <;> rfl

/-- The freshly initialized role table holds −1 everywhere. -/
theorem tget_init (x k : Nat) :
    tget (List.replicate kMaxDevices (List.replicate 4 (-1))) x k = -1 := by
  unfold tget
  rw [getD_replicate]
  split
  · rw [getD_replicate]; split <;> rfl
  · rfl

/-- Shape of the 8 × 4 role table, preserved by every write. -/
def TableWF (t : List (List Int)) : Prop :=
  t.length = 8 ∧ ∀ x, x < 8 → (t.getD x []).length = 4

theorem TableWF_tset {t : List (List Int)} (h : TableWF t) (i k : Nat) (v : Int) :
    TableWF (tset t i k v) := by
  refine ⟨by rw [tset, List.length_set]; exact h.1, fun x hx => ?_⟩
  unfold tset
  by_cases hxi : x = i
  · subst hxi
    by_cases hlen : x < t.length
    · rw [getD_set_self _ _ _ _ hlen, List.length_set]
      exact h.2 x hx
    · rw [List.set_eq_of_length_le (Nat.le_of_not_lt hlen)]
      exact h.2 x hx
  · rw [getD_set_ne _ _ _ _ _ hxi]
    exact h.2 x hx

/-- Reading a written cell of a well-formed table. -/
theorem tget_tset_self {t : List (List Int)} (hwf : TableWF t) {i k : Nat}
    (hi : i < 8) (hk : k < 4) (v : Int) :
    tget (tset t i k v) i k = v := by
  unfold tget tset
  rw [getD_set_self _ _ _ _ (by rw [hwf.1]; exact hi)]
  exact getD_set_self _ _ _ _ (by rw [hwf.2 i hi]; exact hk)

/-- Reading any other cell after a write. -/
theorem tget_tset_ne (t : List (List Int)) (i k : Nat) (v : Int) (x y : Nat)
    (h : x ≠ i ∨ y ≠ k) :
    tget (tset t i k v) x y = tget t x y := by
  unfold tget tset
  rcases h with hx | hy
  · rw [getD_set_ne _ _ _ _ _ hx]
  · by_cases hx : x = i
    · subst hx
      by_cases hlen : x < t.length
      · rw [getD_set_self _ _ _ _ hlen, getD_set_ne _ _ _ _ _ hy]
      · rw [List.set_eq_of_length_le (Nat.le_of_not_lt hlen)]
    · rw [getD_set_ne _ _ _ _ _ hx]

theorem mget_mset_self (c : List Nat) (i v : Nat) (h : i < c.length) :
    mget (mset c i v) i = v :=
  getD_set_self c i v 0 h

theorem mget_mset_ne (c : List Nat) (i v x : Nat) (h : x ≠ i) :
    mget (mset c i v) x = mget c x :=
  getD_set_ne c i v 0 x h

/-- Bit view of the `unordered_set::erase` embedding. -/
theorem clearBit_testBit (m r j : Nat) :
    (clearBit m r).testBit j = if j = r then false else m.testBit j := by
  unfold clearBit
  by_cases hm : m.testBit r
  · rw [if_pos hm, Nat.testBit_xor, Nat.shiftLeft_eq, Nat.one_mul, Nat.testBit_two_pow]
    by_cases hj : j = r
    · subst hj; simp [hm]
    · simp [hj, Ne.symm hj]
  · rw [if_neg hm]
    by_cases hj : j = r
    · subst hj
      rw [if_pos rfl]
      exact Bool.not_eq_true _ ▸ (Bool.eq_false_iff.2 hm)
    · rw [if_neg hj]

theorem clearBit_subset {m r j : Nat} (h : (clearBit m r).testBit j = true) :
    m.testBit j = true ∧ j ≠ r := by
  rw [clearBit_testBit] at h
  by_cases hj : j = r
  · rw [if_pos hj] at h; cases h
  · rw [if_neg hj] at h; exact ⟨h, hj⟩

theorem clearBit_of_testBit_false {m r : Nat} (h : m.testBit r = false) :
    clearBit m r = m := by
  unfold clearBit
  rw [h]
  rfl

theorem clearBit_idem (m r : Nat) : clearBit (clearBit m r) r = clearBit m r :=
  clearBit_of_testBit_false (by rw [clearBit_testBit]; simp)

/-! ### A fold of fallible steps -/

/-- A left fold of fallible steps through Option.bind, the shape of both analyzer loops. -/
def bindFold {σ α : Type} (f : σ → α → Option σ) (o : Option σ) (l : List α) : Option σ :=
  l.foldl (fun o x => o.bind (fun st => f st x)) o

theorem bindFold_none {σ α : Type} (f : σ → α → Option σ) (l : List α) :
    bindFold f none l = none := by
  induction l with
  | nil => rfl
  | cons x l ih => exact ih

theorem bindFold_cons {σ α : Type} (f : σ → α → Option σ) (s : σ) (x : α) (l : List α) :
    bindFold f (some s) (x :: l) = bindFold f (f s x) l := rfl

/-- A property preserved by every successful step survives the fold. -/
theorem bindFold_inv {σ α : Type} {f : σ → α → Option σ} {P : σ → Prop} :
    ∀ (l : List α) (s0 sf : σ),
      (∀ s x s', x ∈ l → f s x = some s' → P s → P s') →
      bindFold f (some s0) l = some sf → P s0 → P sf := by
  intro l
  induction l with
  | nil =>
    intro s0 sf _ h hP
    exact (Option.some.inj h) ▸ hP
  | cons x l ih =>
    intro s0 sf hstep h hP
    rw [bindFold_cons] at h
    cases hfx : f s0 x with
    | none => rw [hfx, bindFold_none] at h; cases h
    | some s1 =>
      rw [hfx] at h
      exact ih s1 sf (fun s y s' hy => hstep s y s' (List.mem_cons_of_mem _ hy)) h
        (hstep s0 x s1 (List.mem_cons_self _ _) hfx hP)

/-- Establishment: over pairwise-distinct steps, a per-step property `Q x`
established when step `x` runs and preserved by every other step holds of
the final state for every step. -/
theorem bindFold_estab {σ α : Type} {f : σ → α → Option σ} {P : σ → Prop}
    {Q : α → σ → Prop} :
    ∀ (l : List α) (s0 sf : σ),
      l.Nodup →
      (∀ s x s', x ∈ l → f s x = some s' → P s → P s') →
      (∀ s x s', x ∈ l → f s x = some s' → P s → Q x s') →
      (∀ s y s' x, y ∈ l → x ≠ y → f s y = some s' → Q x s → Q x s') →
      bindFold f (some s0) l = some sf → P s0 → ∀ x ∈ l, Q x sf := by
  intro l
  induction l with
  | nil => intro s0 sf _ _ _ _ _ _ x hx; cases hx
  | cons a l ih =>
    intro s0 sf hnd hP hQe hQp h hP0 x hx
    rw [bindFold_cons] at h
    cases hfa : f s0 a with
    | none => rw [hfa, bindFold_none] at h; cases h
    | some s1 =>
      rw [hfa] at h
      have hP1 : P s1 := hP s0 a s1 (List.mem_cons_self _ _) hfa hP0
      rcases List.mem_cons.1 hx with rfl | hx2
      · have hQa : Q x s1 := hQe s0 x s1 (List.mem_cons_self _ _) hfa hP0
        have hnotin : x ∉ l := (List.nodup_cons.1 hnd).1
        exact bindFold_inv l s1 sf
          (fun s y s' hy hfy hq =>
            hQp s y s' x (List.mem_cons_of_mem _ hy)
              (fun he => hnotin (by rw [he]; exact hy)) hfy hq)
          h hQa
      · exact ih s1 sf (List.nodup_cons.1 hnd).2
          (fun s y s' hy => hP s y s' (List.mem_cons_of_mem _ hy))
          (fun s y s' hy => hQe s y s' (List.mem_cons_of_mem _ hy))
          (fun s y s' x2 hy => hQp s y s' x2 (List.mem_cons_of_mem _ hy))
          h hP1 x hx2

/-! ### Recognition-phase facts -/

/-- The unique relay of rank `i`, read off the candidate list. -/
def relFn (masks : List Nat) (i : Nat) : Nat := (relayCandidates masks i).getD 0 0

theorem recogStep_some {masks : List Nat} {st : HcmState} {i : Nat} {st' : HcmState}
    (h : recogStep masks st i = some st') :
    relayCandidates masks i = [relFn masks i] ∧
    st' = ⟨tset st.hcm i 3 (Int.ofNat (relFn masks i)),
      mset st.cur i (clearBit (mget st.cur i) (relFn masks i))⟩ := by
  unfold recogStep at h
  split at h
  · cases h
  · rcases hm : relayCandidates masks i with _ | ⟨rel, _ | ⟨b, l⟩⟩ <;> rw [hm] at h
    · cases h
    · have hrel : relFn masks i = rel := by rw [relFn, hm]; rfl
      obtain rfl := (Option.some.inj h).symm
      rw [hrel]
      exact ⟨rfl, rfl⟩
    · cases h

theorem recogAll_eq (masks : List Nat) :
    recogAll masks = bindFold (recogStep masks)
      (some ⟨List.replicate kMaxDevices (List.replicate 4 (-1)), masks⟩)
      (List.range kMaxDevices) := rfl

/-- Every rank's relay candidate list is the singleton `[relFn masks x]`,
column 3 records it, and the neighbor set lost exactly that bit. -/
theorem recogAll_facts {masks : List Nat} {st0 : HcmState} (hm8 : masks.length = 8)
    (h : recogAll masks = some st0) :
    (TableWF st0.hcm ∧ st0.cur.length = 8 ∧ ∀ x k, k < 3 → tget st0.hcm x k = -1) ∧
    (∀ x, x < 8 →
      tget st0.hcm x 3 = Int.ofNat (relFn masks x) ∧
      mget st0.cur x = clearBit (mget masks x) (relFn masks x) ∧
      relayCandidates masks x = [relFn masks x]) := by
  rw [recogAll_eq] at h
  have hP0 : (fun st : HcmState => TableWF st.hcm ∧ st.cur.length = 8 ∧
      (∀ x k, k < 3 → tget st.hcm x k = -1) ∧
      (∀ x, x < 8 → mget st.cur x = mget masks x ∨
        mget st.cur x = clearBit (mget masks x) (relFn masks x)))
      ⟨List.replicate kMaxDevices (List.replicate 4 (-1)), masks⟩ := by
    refine ⟨⟨by simp [kMaxDevices], fun x hx => ?_⟩, hm8, fun x k hk => tget_init x k,
      fun x _ => Or.inl rfl⟩
    rw [getD_replicate]
    rw [if_pos (by exact hx)]
    simp
  have hpres : ∀ (s : HcmState) (y : Nat) (s' : HcmState), y ∈ List.range kMaxDevices →
      recogStep masks s y = some s' →
      (TableWF s.hcm ∧ s.cur.length = 8 ∧ (∀ x k, k < 3 → tget s.hcm x k = -1) ∧
        (∀ x, x < 8 → mget s.cur x = mget masks x ∨
          mget s.cur x = clearBit (mget masks x) (relFn masks x))) →
      TableWF s'.hcm ∧ s'.cur.length = 8 ∧ (∀ x k, k < 3 → tget s'.hcm x k = -1) ∧
        (∀ x, x < 8 → mget s'.cur x = mget masks x ∨
          mget s'.cur x = clearBit (mget masks x) (relFn masks x)) := by
    intro s y s' hy hstep ⟨hwf, hcl, hc3, hcur⟩
    obtain ⟨hsing, rfl⟩ := recogStep_some hstep
    refine ⟨TableWF_tset hwf _ _ _, by rw [mset, List.length_set]; exact hcl,
      fun x k hk => ?_, fun x hx => ?_⟩
    · rw [tget_tset_ne _ _ _ _ _ _ (Or.inr (by omega))]
      exact hc3 x k hk
    · by_cases hxy : x = y
      · subst hxy
        right
        rw [mget_mset_self _ _ _ (by rw [hcl]; exact hx)]
        rcases hcur x hx with hold | hold <;> rw [hold]
        exact clearBit_idem _ _
      · rw [mget_mset_ne _ _ _ _ hxy]
        exact hcur x hx
  have hestab := bindFold_estab (Q := fun x st =>
      tget st.hcm x 3 = Int.ofNat (relFn masks x) ∧
      mget st.cur x = clearBit (mget masks x) (relFn masks x) ∧
      relayCandidates masks x = [relFn masks x])
    (List.range kMaxDevices) _ st0 (List.nodup_range _) hpres
    (by
      intro s x s' hx hstep ⟨hwf, hcl, hc3, hcur⟩
      obtain ⟨hsing, rfl⟩ := recogStep_some hstep
      have hx8 : x < 8 := List.mem_range.1 hx
      refine ⟨tget_tset_self hwf hx8 (by omega) _, ?_, hsing⟩
      rw [mget_mset_self _ _ _ (by rw [hcl]; exact hx8)]
      rcases hcur x hx8 with hold | hold <;> rw [hold]
      exact clearBit_idem _ _)
    (by
      intro s y s' x hy hxy hstep ⟨h3, hc, hs⟩
      obtain ⟨hsing, rfl⟩ := recogStep_some hstep
      refine ⟨?_, ?_, hs⟩
      · rw [tget_tset_ne _ _ _ _ _ _ (Or.inl hxy)]; exact h3
      · rw [mget_mset_ne _ _ _ _ hxy]; exact hc)
    h hP0
  have hinv := bindFold_inv (List.range kMaxDevices) _ st0 hpres h hP0
  exact ⟨⟨hinv.1, hinv.2.1, hinv.2.2.1⟩,
    fun x hx => hestab x (List.mem_range.2 (by exact hx))⟩

theorem relFn_mem {masks : List Nat} {x : Nat}
    (h : relayCandidates masks x = [relFn masks x]) :
    relFn masks x < 8 ∧ mget masks x &&& mget masks (relFn masks x) = 0 := by
  have hmem : relFn masks x ∈ relayCandidates masks x := by
    rw [h]; exact List.mem_singleton_self _
  unfold relayCandidates at hmem
  have h2 := List.mem_filter.1 hmem
  exact ⟨List.mem_range.1 h2.1, of_decide_eq_true h2.2⟩

theorem relFn_ne_self {masks : List Nat} {x : Nat}
    (h : relayCandidates masks x = [relFn masks x]) :
    relFn masks x ≠ x := by
  intro he
  have hland := (relFn_mem h).2
  rw [he] at hland
  have h0 : mget masks x = 0 := by simpa using hland
  have hall : relayCandidates masks x = List.range 8 := by
    unfold relayCandidates
    rw [h0]
    simp [kMaxDevices]
  rw [hall] at h
  have := congrArg List.length h
  simp at this

theorem relFn_invol {masks : List Nat} {x : Nat} (hx : x < 8)
    (hall : ∀ y, y < 8 → relayCandidates masks y = [relFn masks y]) :
    relFn masks (relFn masks x) = x := by
  have hr := hall x hx
  have hlt := (relFn_mem hr).1
  have hland := (relFn_mem hr).2
  have hmem : x ∈ relayCandidates masks (relFn masks x) := by
    unfold relayCandidates
    refine List.mem_filter.2 ⟨List.mem_range.2 (by exact hx), decide_eq_true ?_⟩
    rw [Nat.land_comm]
    exact hland
  rw [hall _ hlt] at hmem
  exact (List.mem_singleton.1 hmem).symm


/-- A written table entry is never the −1 sentinel. -/
theorem ofNat_ne_negOne (n : Nat) : Int.ofNat n ≠ -1 := by
  intro he
  have h0 : (0 : Int) ≤ Int.ofNat n := Int.ofNat_nonneg n
  rw [he] at h0
  omega

/-! ### Greedy-phase invariants -/

/-- Invariant carried through the greedy assignment, for the relay map
`rel` recovered from recognition: the table keeps its 8 × 4 shape, column
3 holds the relay, every remaining neighbor-set bit avoids the relay, and
every filled neighbor column holds a non-relay rank. -/
structure GoodGreedy (rel : Nat → Nat) (st : HcmState) : Prop where
  wf : TableWF st.hcm
  curlen : st.cur.length = 8
  cur_ok : ∀ i, i < 8 → ∀ j, (mget st.cur i).testBit j = true → j ≠ rel i
  col3 : ∀ i, i < 8 → tget st.hcm i 3 = Int.ofNat (rel i)
  safe : ∀ i k, i < 8 → k < 3 → tget st.hcm i k = -1 ∨
    ∃ j, j < 8 ∧ j ≠ rel i ∧ tget st.hcm i k = Int.ofNat j

/-- What a successful candidate scan yields. -/
theorem pickJ_some {hcm : List (List Int)} {k cur j : Nat}
    (h : pickJ hcm k cur = some j) :
    j < 8 ∧ cur.testBit j = true ∧ tget hcm j k = -1 := by
  unfold pickJ at h
  have hj : j ∈ (List.range kMaxDevices).reverse := List.mem_of_find?_eq_some h
  have hp := List.find?_some h
  rw [Bool.and_eq_true] at hp
  exact ⟨List.mem_range.1 (List.mem_reverse.1 hj), hp.1, eq_of_beq hp.2⟩

/-- Evaluation of `greedyCol` when the scan finds nobody: the slot must already be
filled by an earlier partner write. -/
theorem greedyCol_none_eq {st : HcmState} {i k : Nat}
    (h : pickJ st.hcm k (mget st.cur i) = none) :
    greedyCol st i k =
      if tget st.hcm i k = -1 then none
      else some ⟨st.hcm, mset st.cur i (clearBit (mget st.cur i) (tget st.hcm i k).toNat)⟩ := by
  simp only [greedyCol, h]

/-- Evaluation of `greedyCol` when the scan pairs `i` with `j`: both directions are
written. -/
theorem greedyCol_some_eq {st : HcmState} {i k j : Nat}
    (h : pickJ st.hcm k (mget st.cur i) = some j) :
    greedyCol st i k =
      if tget (tset (tset st.hcm i k (Int.ofNat j)) j k (Int.ofNat i)) i k = -1 then none
      else some ⟨tset (tset st.hcm i k (Int.ofNat j)) j k (Int.ofNat i),
        mset st.cur i (clearBit (mget st.cur i)
          (tget (tset (tset st.hcm i k (Int.ofNat j)) j k (Int.ofNat i)) i k).toNat)⟩ := by
  simp only [greedyCol, h]

theorem greedyCol_pres {rel : Nat → Nat} {st st' : HcmState} {i k : Nat}
    (hi : i < 8) (hk : k < 3)
    (hrel : ∀ x, x < 8 → rel x < 8 ∧ rel (rel x) = x)
    (hg : GoodGreedy rel st) (h : greedyCol st i k = some st') :
    GoodGreedy rel st' := by
  rcases hpk : pickJ st.hcm k (mget st.cur i) with _ | j
  · rw [greedyCol_none_eq hpk] at h
    split at h
    · cases h
    · obtain rfl := (Option.some.inj h).symm
      exact
        { wf := hg.wf
          curlen := by rw [mset, List.length_set]; exact hg.curlen
          cur_ok := by
            intro x hx j2 hbit
            by_cases hxi : x = i
            · subst hxi
              rw [mget_mset_self _ _ _ (by rw [hg.curlen]; exact hx)] at hbit
              exact hg.cur_ok x hx j2 (clearBit_subset hbit).1
            · rw [mget_mset_ne _ _ _ _ hxi] at hbit
              exact hg.cur_ok x hx j2 hbit
          col3 := hg.col3
          safe := hg.safe }
  · rw [greedyCol_some_eq hpk] at h
    split at h
    · cases h
    · obtain ⟨hj8, hjb, hjempty⟩ := pickJ_some hpk
      obtain rfl := (Option.some.inj h).symm
      have hwf1 : TableWF (tset st.hcm i k (Int.ofNat j)) := TableWF_tset hg.wf _ _ _
      have hjrel : j ≠ rel i := hg.cur_ok i hi j hjb
      have hirelj : i ≠ rel j := by
        intro he
        have hinv := (hrel j hj8).2
        rw [← he] at hinv
        exact hjrel hinv.symm
      refine
        { wf := TableWF_tset hwf1 _ _ _
          curlen := by rw [mset, List.length_set]; exact hg.curlen
          cur_ok := ?_
          col3 := ?_
          safe := ?_ }
      · intro x hx j2 hbit
        by_cases hxi : x = i
        · subst hxi
          rw [mget_mset_self _ _ _ (by rw [hg.curlen]; exact hx)] at hbit
          exact hg.cur_ok x hx j2 (clearBit_subset hbit).1
        · rw [mget_mset_ne _ _ _ _ hxi] at hbit
          exact hg.cur_ok x hx j2 hbit
      · intro x hx
        rw [tget_tset_ne _ _ _ _ _ _ (Or.inr (by omega)),
          tget_tset_ne _ _ _ _ _ _ (Or.inr (by omega))]
        exact hg.col3 x hx
      · intro x k2 hx hk2
        by_cases hxj : x = j ∧ k2 = k
        · obtain ⟨rfl, rfl⟩ := hxj
          right
          exact ⟨i, hi, hirelj, tget_tset_self hwf1 hj8 (by omega) _⟩
        · by_cases hxi : x = i ∧ k2 = k
          · obtain ⟨rfl, rfl⟩ := hxi
            have hij : x ≠ j := fun he => hxj ⟨he, rfl⟩
            right
            refine ⟨j, hj8, hjrel, ?_⟩
            rw [tget_tset_ne _ _ _ _ _ _ (Or.inl hij)]
            exact tget_tset_self hg.wf hx (by omega) _
          · have hne1 : x ≠ j ∨ k2 ≠ k := by
              by_cases h1 : x = j
              · exact Or.inr (fun h2 => hxj ⟨h1, h2⟩)
              · exact Or.inl h1
            have hne2 : x ≠ i ∨ k2 ≠ k := by
              by_cases h1 : x = i
              · exact Or.inr (fun h2 => hxi ⟨h1, h2⟩)
              · exact Or.inl h1
            rw [tget_tset_ne _ _ _ _ _ _ hne1, tget_tset_ne _ _ _ _ _ _ hne2]
            exact hg.safe x k2 hx hk2

theorem greedyCol_estab {st st' : HcmState} {i k : Nat}
    (h : greedyCol st i k = some st') : tget st'.hcm i k ≠ -1 := by
  rcases hpk : pickJ st.hcm k (mget st.cur i) with _ | j
  · rw [greedyCol_none_eq hpk] at h
    split at h
    · cases h
    · obtain rfl := (Option.some.inj h).symm
      assumption
  · rw [greedyCol_some_eq hpk] at h
    split at h
    · cases h
    · obtain rfl := (Option.some.inj h).symm
      assumption

theorem greedyCol_keep {st st' : HcmState} {i k : Nat} (hwf : TableWF st.hcm)
    (hi : i < 8) (hk : k < 3) (h : greedyCol st i k = some st')
    {x y : Nat} (hxy : tget st.hcm x y ≠ -1) : tget st'.hcm x y ≠ -1 := by
  rcases hpk : pickJ st.hcm k (mget st.cur i) with _ | j
  · rw [greedyCol_none_eq hpk] at h
    split at h
    · cases h
    · obtain rfl := (Option.some.inj h).symm
      exact hxy
  · rw [greedyCol_some_eq hpk] at h
    split at h
    · cases h
    · obtain ⟨hj8, hjb, hjempty⟩ := pickJ_some hpk
      obtain rfl := (Option.some.inj h).symm
      have hwf1 : TableWF (tset st.hcm i k (Int.ofNat j)) := TableWF_tset hwf _ _ _
      by_cases hxj : x = j ∧ y = k
      · obtain ⟨rfl, rfl⟩ := hxj
        rw [tget_tset_self hwf1 hj8 (by omega) _]
        exact ofNat_ne_negOne _
      · by_cases hxi : x = i ∧ y = k
        · obtain ⟨rfl, rfl⟩ := hxi
          have hij : x ≠ j := fun he => hxj ⟨he, rfl⟩
          rw [tget_tset_ne _ _ _ _ _ _ (Or.inl hij), tget_tset_self hwf hi (by omega) _]
          exact ofNat_ne_negOne _
        · have hne1 : x ≠ j ∨ y ≠ k := by
            by_cases h1 : x = j
            · exact Or.inr (fun h2 => hxj ⟨h1, h2⟩)
            · exact Or.inl h1
          have hne2 : x ≠ i ∨ y ≠ k := by
            by_cases h1 : x = i
            · exact Or.inr (fun h2 => hxi ⟨h1, h2⟩)
            · exact Or.inl h1
          rw [tget_tset_ne _ _ _ _ _ _ hne1, tget_tset_ne _ _ _ _ _ _ hne2]
          exact hxy

theorem greedyRank_eq (st : HcmState) (i : Nat) :
    greedyRank st i =
      ((greedyCol st i 0).bind (fun s => greedyCol s i 1)).bind
        (fun s => greedyCol s i 2) := rfl

theorem greedyRank_some {st : HcmState} {i : Nat} {st' : HcmState}
    (h : greedyRank st i = some st') :
    ∃ s1 s2, greedyCol st i 0 = some s1 ∧ greedyCol s1 i 1 = some s2 ∧
      greedyCol s2 i 2 = some st' := by
  rw [greedyRank_eq] at h
  obtain ⟨s2, h12, h2⟩ := Option.bind_eq_some.1 h
  obtain ⟨s1, h0, h1⟩ := Option.bind_eq_some.1 h12
  exact ⟨s1, s2, h0, h1, h2⟩

theorem greedyRank_pres {rel : Nat → Nat} {st st' : HcmState} {i : Nat}
    (hi : i < 8) (hrel : ∀ x, x < 8 → rel x < 8 ∧ rel (rel x) = x)
    (hg : GoodGreedy rel st) (h : greedyRank st i = some st') :
    GoodGreedy rel st' := by
  obtain ⟨s1, s2, h0, h1, h2⟩ := greedyRank_some h
  exact greedyCol_pres hi (by omega) hrel
    (greedyCol_pres hi (by omega) hrel (greedyCol_pres hi (by omega) hrel hg h0) h1) h2

theorem greedyRank_keep {rel : Nat → Nat} {st st' : HcmState} {i : Nat}
    (hi : i < 8) (hrel : ∀ x, x < 8 → rel x < 8 ∧ rel (rel x) = x)
    (hg : GoodGreedy rel st) (h : greedyRank st i = some st')
    {x y : Nat} (hxy : tget st.hcm x y ≠ -1) : tget st'.hcm x y ≠ -1 := by
  obtain ⟨s1, s2, h0, h1, h2⟩ := greedyRank_some h
  have g1 := greedyCol_pres hi (by omega) hrel hg h0
  have g2 := greedyCol_pres hi (by omega) hrel g1 h1
  exact greedyCol_keep g2.wf hi (by omega) h2
    (greedyCol_keep g1.wf hi (by omega) h1 (greedyCol_keep hg.wf hi (by omega) h0 hxy))

theorem greedyRank_estab {rel : Nat → Nat} {st st' : HcmState} {i : Nat}
    (hi : i < 8) (hrel : ∀ x, x < 8 → rel x < 8 ∧ rel (rel x) = x)
    (hg : GoodGreedy rel st) (h : greedyRank st i = some st') :
    ∀ k, k < 3 → tget st'.hcm i k ≠ -1 := by
  obtain ⟨s1, s2, h0, h1, h2⟩ := greedyRank_some h
  have g1 := greedyCol_pres hi (by omega) hrel hg h0
  have g2 := greedyCol_pres hi (by omega) hrel g1 h1
  have e0 : tget st'.hcm i 0 ≠ -1 :=
    greedyCol_keep g2.wf hi (by omega) h2
      (greedyCol_keep g1.wf hi (by omega) h1 (greedyCol_estab h0))
  have e1 : tget st'.hcm i 1 ≠ -1 :=
    greedyCol_keep g2.wf hi (by omega) h2 (greedyCol_estab h1)
  have e2 : tget st'.hcm i 2 ≠ -1 := greedyCol_estab h2
  intro k hk
  have hcase : k = 0 ∨ k = 1 ∨ k = 2 := by omega
  rcases hcase with rfl | rfl | rfl
  · exact e0
  · exact e1
  · exact e2

theorem greedyAll_eq (st : HcmState) :
    greedyAll st = bindFold (fun s i => greedyRank s i) (some st)
      (List.range kMaxDevices) := rfl

/-- Outcome of a successful greedy pass: the invariant holds of the final
state and every neighbor column of every rank is filled. -/
theorem greedyAll_facts {rel : Nat → Nat} {st st2 : HcmState}
    (hrel : ∀ x, x < 8 → rel x < 8 ∧ rel (rel x) = x)
    (hg : GoodGreedy rel st) (h : greedyAll st = some st2) :
    GoodGreedy rel st2 ∧ ∀ i, i < 8 → ∀ k, k < 3 → tget st2.hcm i k ≠ -1 := by
  rw [greedyAll_eq] at h
  have hpres : ∀ (s : HcmState) (y : Nat) (s' : HcmState), y ∈ List.range kMaxDevices →
      greedyRank s y = some s' → GoodGreedy rel s → GoodGreedy rel s' :=
    fun s y s' hy hstep hgs => greedyRank_pres (List.mem_range.1 hy) hrel hgs hstep
  have hestab := bindFold_estab (Q := fun i s =>
      GoodGreedy rel s ∧ ∀ k, k < 3 → tget s.hcm i k ≠ -1)
    (List.range kMaxDevices) st st2 (List.nodup_range _) hpres
    (by
      intro s i s' hi hstep hgs
      refine ⟨greedyRank_pres (List.mem_range.1 hi) hrel hgs hstep, ?_⟩
      exact greedyRank_estab (List.mem_range.1 hi) hrel hgs hstep)
    (by
      intro s y s' i hy hne hstep ⟨hgs, hfill⟩
      refine ⟨greedyRank_pres (List.mem_range.1 hy) hrel hgs hstep, fun k hk => ?_⟩
      exact greedyRank_keep (List.mem_range.1 hy) hrel hgs hstep (hfill k hk))
    h hg
  have hinv := bindFold_inv (List.range kMaxDevices) st st2 hpres h hg
  exact ⟨hinv, fun i hi => (hestab i (List.mem_range.2 (by exact hi))).2⟩


/-- Unfolded form of `getHybridCubeMesh`. -/
theorem getHCM_unfold (nvl : Nat → Nat → Nat) :
    getHybridCubeMesh nvl =
      match recogAll ((List.range kMaxDevices).map (nvlMaskRow nvl)) with
      | none => HcmResult.unsupported
      | some st =>
        match greedyAll st with
        | none => HcmResult.checkFailed
        | some st2 => HcmResult.ok st2.hcm := rfl

/-- Structure of every table `getHybridCubeMesh` returns: well-formed
8 × 4, with an involutive sub-8 relay map in column 3 and neighbor
columns filled with non-relay ranks. -/
theorem getHCM_ok_invariants {nvl : Nat → Nat → Nat} {t : List (List Int)}
    (h : getHybridCubeMesh nvl = HcmResult.ok t) :
    ∃ rel : Nat → Nat,
      TableWF t ∧
      (∀ x, x < 8 → rel x < 8 ∧ rel (rel x) = x ∧ rel x ≠ x) ∧
      (∀ x, x < 8 → tget t x 3 = Int.ofNat (rel x)) ∧
      (∀ x k, x < 8 → k < 3 → ∃ j, j < 8 ∧ j ≠ rel x ∧ tget t x k = Int.ofNat j) := by
  rw [getHCM_unfold] at h
  rcases hrec : recogAll ((List.range kMaxDevices).map (nvlMaskRow nvl)) with _ | st0
  · simp only [hrec] at h
    exact HcmResult.noConfusion h
  simp only [hrec] at h
  rcases hgr : greedyAll st0 with _ | st2
  · simp only [hgr] at h
    exact HcmResult.noConfusion h
  simp only [hgr] at h
  injection h with h2
  subst h2
  have hm8 : ((List.range kMaxDevices).map (nvlMaskRow nvl)).length = 8 := by
    simp [kMaxDevices]
  obtain ⟨⟨hwf0, hcl0, hc30⟩, hper⟩ := recogAll_facts hm8 hrec
  have hall : ∀ y, y < 8 →
      relayCandidates ((List.range kMaxDevices).map (nvlMaskRow nvl)) y =
        [relFn ((List.range kMaxDevices).map (nvlMaskRow nvl)) y] :=
    fun y hy => (hper y hy).2.2
  have hrel : ∀ x, x < 8 →
      relFn ((List.range kMaxDevices).map (nvlMaskRow nvl)) x < 8 ∧
      relFn ((List.range kMaxDevices).map (nvlMaskRow nvl))
        (relFn ((List.range kMaxDevices).map (nvlMaskRow nvl)) x) = x :=
    fun x hx => ⟨(relFn_mem (hall x hx)).1, relFn_invol hx hall⟩
  have hg0 : GoodGreedy (relFn ((List.range kMaxDevices).map (nvlMaskRow nvl))) st0 :=
    { wf := hwf0
      curlen := hcl0
      cur_ok := by
        intro i hi j hbit
        rw [(hper i hi).2.1] at hbit
        exact (clearBit_subset hbit).2
      col3 := fun i hi => (hper i hi).1
      safe := fun i k hi hk => Or.inl (hc30 i k hk) }
  obtain ⟨hg2, hfill⟩ := greedyAll_facts hrel hg0 hgr
  refine ⟨relFn ((List.range kMaxDevices).map (nvlMaskRow nvl)), hg2.wf,
    fun x hx => ⟨(hrel x hx).1, (hrel x hx).2, relFn_ne_self (hall x hx)⟩,
    fun x hx => hg2.col3 x hx, fun x k hx hk => ?_⟩
  rcases hg2.safe x k hx hk with hempty | hfilled
  · exact absurd hempty (hfill x hx k hk)
  · exact hfilled

/-! ### Concrete topologies -/

/-- Neighbor-mask rows of the standard 8-GPU DGX-1 hybrid cube mesh. -/
def dgxRows : List Nat := [0x1e, 0x2d, 0x4b, 0x87, 0xe1, 0xd2, 0xb4, 0x78]

/-- The role table the analyzer computes for `dgxRows`. -/
def dgxTable : List (List Int) :=
  [[3, 2, 1, 4], [2, 3, 0, 5], [1, 0, 3, 6], [0, 1, 2, 7],
   [7, 6, 5, 0], [6, 7, 4, 1], [5, 4, 7, 2], [4, 5, 6, 3]]

/-- An asymmetric adjacency matrix (rank 1 lists 4 as a neighbor but not
conversely) that the analyzer accepts. -/
def m1Rows : List Nat := [0x0f, 0x1b, 0x2d, 0x47, 0xd2, 0xe4, 0xb8, 0xf0]

/-- The role table the analyzer computes for `m1Rows`. -/
def m1Table : List (List Int) :=
  [[3, 2, 1, 7], [4, 3, 0, 5], [5, 0, 3, 4], [0, 1, 2, 6],
   [7, 6, 4, 2], [6, 7, 5, 1], [5, 4, 7, 3], [4, 5, 6, 0]]

/-- C3: every role table `getHybridCubeMesh` returns has all four peer
entries of every rank assigned (distinct from −1), and its relay map is
involutive: column 3 holds a rank `r` with `hcm[r][3] = i`.  The claimed
neighbor-column symmetry `hcm[i][k] = j ↔ hcm[j][k] = i` is not part of
this statement: it fails on `m1Rows` (see the counterexample). -/
theorem claim_C3_invariants (nvl : Nat → Nat → Nat) (t : List (List Int))
    (h : getHybridCubeMesh nvl = HcmResult.ok t) :
    (∀ i k, i < 8 → k < 4 → tget t i k ≠ -1) ∧
    (∀ i, i < 8 → ∃ r, r < 8 ∧ tget t i 3 = Int.ofNat r ∧ tget t r 3 = Int.ofNat i) := by
  obtain ⟨rel, hwf, hrel, hcol3, hcols⟩ := getHCM_ok_invariants h
  constructor
  · intro i k hi hk
    by_cases h3 : k = 3
    · subst h3
      rw [hcol3 i hi]
      exact ofNat_ne_negOne _
    · obtain ⟨j, _, _, hv⟩ := hcols i k hi (by omega)
      rw [hv]
      exact ofNat_ne_negOne _
  · intro i hi
    refine ⟨rel i, (hrel i hi).1, hcol3 i hi, ?_⟩
    rw [hcol3 (rel i) (hrel i hi).1, (hrel i hi).2.1]

theorem claim_C3_invariants_witness :
    (∀ i k, i < 8 → k < 4 → tget dgxTable i k ≠ -1) ∧
    (∀ i, i < 8 →
      ∃ r, r < 8 ∧ tget dgxTable i 3 = Int.ofNat r ∧ tget dgxTable r 3 = Int.ofNat i) :=
  claim_C3_invariants (mkNvl dgxRows) dgxTable (by decide)

/-- C3 counterexample: on the recognized matrix `m1Rows` the analyzer
succeeds, yet the neighbor columns are not symmetric: `hcm[1][0] = 4`
while `hcm[4][0] = 7 ≠ 1`, refuting `hcm[i][k] = j ↔ hcm[j][k] = i`. -/
theorem claim_C3_counterexample :
    getHybridCubeMesh (mkNvl m1Rows) = HcmResult.ok m1Table ∧
    tget m1Table 1 0 = 4 ∧ tget m1Table 4 0 = 7 := by
  refine ⟨by decide, by decide, by decide⟩

/-- Signal-table columns rank `i` handshakes with in the kernel's entry
barrier: `hcmInfo[0..2]` (source lines 353–357). -/
def hcmBarrierPeers (t : List (List Int)) (i : Nat) : List Int :=
  [tget t i 0, tget t i 1, tget t i 2]

/-- Signal-table column used for the relay exchange: `hcmInfo[3]`
(source lines 350, 389–392). -/
def hcmRelayPeer (t : List (List Int)) (i : Nat) : Int := tget t i 3

/-- C8: in every table `getHybridCubeMesh` returns, the relay entry of a
rank differs from each of its three direct-neighbor entries, so the
relay handshake's `signals0` column is not one the entry barrier uses. -/
theorem claim_C8_relay_distinct (nvl : Nat → Nat → Nat) (t : List (List Int))
    (h : getHybridCubeMesh nvl = HcmResult.ok t) :
    ∀ i, i < 8 → hcmRelayPeer t i ∉ hcmBarrierPeers t i := by
  obtain ⟨rel, hwf, hrel, hcol3, hcols⟩ := getHCM_ok_invariants h
  intro i hi hmem
  have hget : ∀ k, k < 3 → hcmRelayPeer t i ≠ tget t i k := by
    intro k hk he
    obtain ⟨j, hj8, hjne, hv⟩ := hcols i k hi hk
    rw [hcmRelayPeer, hcol3 i hi, hv] at he
    exact hjne (Int.ofNat.inj he).symm
  simp only [hcmBarrierPeers, List.mem_cons, List.not_mem_nil, or_false] at hmem
  rcases hmem with he | he | he
  · exact hget 0 (by omega) he
  · exact hget 1 (by omega) he
  · exact hget 2 (by omega) he

theorem claim_C8_relay_distinct_witness :
    hcmRelayPeer dgxTable 0 ∉ hcmBarrierPeers dgxTable 0 :=
  claim_C8_relay_distinct (mkNvl dgxRows) dgxTable (by decide) 0 (by decide)

/-! ### The two-quad family (amended C4) -/

/-- Result discriminator: did the analyzer return a table? -/
def isOk : HcmResult → Bool
  | HcmResult.ok _ => true
  | _ => false

theorem isOk_iff (r : HcmResult) : isOk r = true ↔ ∃ t, r = HcmResult.ok t := by
  cases r with
  | unsupported => simp [isOk]
  | checkFailed => simp [isOk]
  | ok t => simp [isOk]

/-- All ways to insert `x` into a list. -/
def inserts (x : Nat) : List Nat → List (List Nat)
  | [] => [[x]]
  | y :: ys => (x :: y :: ys) :: (inserts x ys).map (y :: ·)

/-- All permutations of a list. -/
def perms : List Nat → List (List Nat)
  | [] => [[]]
  | x :: xs => (perms xs).flatMap (inserts x)

/-- Bitmask of a vertex set. -/
def quadMask (qa : List Nat) : Nat := qa.foldl (fun m x => m ||| (1 <<< x)) 0

/-- Neighbor-mask rows of the hybrid cube mesh on two fully connected
quads `qa`, `qb` joined by the cross matching `qa.zip p`. -/
def twoQuadRows (qa qb p : List Nat) : List Nat :=
  (List.range 8).map (fun i =>
    let ma := quadMask qa
    let mb := quadMask qb
    let pairs := qa.zip p
    let partner :=
      match pairs.find? (fun w => w.1 == i) with
      | some w => w.2
      | none =>
        match pairs.find? (fun w => w.2 == i) with
        | some w => w.1
        | none => 0
    clearBit (if ma.testBit i then ma else mb) i ||| (1 <<< partner))

/-- C4 (amended): the greedy pairing never trips the `TORCH_CHECK` on
the canonical two-quad hybrid cube meshes: quads `{0,1,2,3}` and
`{4,5,6,7}`, each fully connected, joined by any of the 24 perfect cross
matchings (the DGX-1 topology is the identity matching).  The original
claim — success on every input passing the recognition checks — is
refuted by the counterexample on m2Rows below. -/
theorem claim_C4_two_quad_greedy :
    ∀ p ∈ perms [4, 5, 6, 7],
      ∃ t, getHybridCubeMesh (mkNvl (twoQuadRows [0, 1, 2, 3] [4, 5, 6, 7] p)) =
        HcmResult.ok t := by
  have hall : ∀ p ∈ perms [4, 5, 6, 7],
      isOk (getHybridCubeMesh (mkNvl (twoQuadRows [0, 1, 2, 3] [4, 5, 6, 7] p))) = true := by
    decide
  intro p hp
  exact (isOk_iff _).1 (hall p hp)

theorem claim_C4_two_quad_greedy_witness :
    ∃ t, getHybridCubeMesh (mkNvl (twoQuadRows [0, 1, 2, 3] [4, 5, 6, 7] [4, 5, 6, 7])) =
      HcmResult.ok t :=
  claim_C4_two_quad_greedy [4, 5, 6, 7] (by decide)

/-- A matrix passing both recognition checks (4 neighbors per rank, a
unique relay candidate per rank) on which the greedy pairing trips the
`TORCH_CHECK(hcm[i][k] != -1)`. -/
def m2Rows : List Nat := [0x0f, 0x17, 0x2b, 0x4d, 0xb2, 0xd4, 0xe8, 0xf0]

/-- C4 counterexample: `m2Rows` satisfies the two recognition conditions
of the claim, yet `getHybridCubeMesh` throws. -/
theorem claim_C4_counterexample :
    (∀ i, i < 8 →
      bitCount (mget ((List.range kMaxDevices).map (nvlMaskRow (mkNvl m2Rows))) i) = 4 ∧
      (relayCandidates ((List.range kMaxDevices).map (nvlMaskRow (mkNvl m2Rows))) i).length
        = 1) ∧
    getHybridCubeMesh (mkNvl m2Rows) = HcmResult.checkFailed := by
  refine ⟨by decide, by decide⟩


/-! ### The allReduce dispatcher (lines 683-705) -/

/-- Source `allReduce`: dispatch on the selected algorithm; any other
value (the enum's only remaining value is `NONE`) raises the
`ValueError` before any staging copy or kernel launch, leaving the
input and every peer buffer untouched (the model returns no output
state at all). -/
def allReduce (hadd : Nat → Nat → Nat) (kMaxIntraNodeSize W rank N : Nat)
    (algo : AllReduceAlgo) (info : Nat → Nat × Nat × Nat × Nat)
    (bufs : Nat → Nat → Nat) (input scratch : Nat → Nat) : Except Err (Nat → Nat) :=
  match algo with
  | AllReduceAlgo.ONE_SHOT => oneShotAllReduce hadd kMaxIntraNodeSize W rank N bufs input
  | AllReduceAlgo.TWO_SHOT =>
    twoShotAllReduce hadd kMaxIntraNodeSize W rank N bufs input scratch
  | AllReduceAlgo.HCM =>
    hybridCubeMeshAllReduce hadd kMaxIntraNodeSize W rank N info bufs input
  | AllReduceAlgo.NONE => Except.error Err.invalidAlgo

/-- C10: for every algo other than ONE_SHOT, TWO_SHOT and HCM (that is,
for NONE), `allReduce` fails with the ValueError and produces no output
state: no kernel result and no modification of the input or of any peer
buffer is reported. -/
theorem claim_C10_invalid_algo (hadd : Nat → Nat → Nat) (kMax W rank N : Nat)
    (algo : AllReduceAlgo) (info : Nat → Nat × Nat × Nat × Nat)
    (bufs : Nat → Nat → Nat) (input scratch : Nat → Nat)
    (h1 : algo ≠ AllReduceAlgo.ONE_SHOT) (h2 : algo ≠ AllReduceAlgo.TWO_SHOT)
    (h3 : algo ≠ AllReduceAlgo.HCM) :
    allReduce hadd kMax W rank N algo info bufs input scratch =
      Except.error Err.invalidAlgo := by
  cases algo with
  | NONE => rfl
  | ONE_SHOT => exact absurd rfl h1
  | TWO_SHOT => exact absurd rfl h2
  | HCM => exact absurd rfl h3

theorem claim_C10_invalid_algo_witness :
    allReduce Nat.add 20971520 8 0 16 AllReduceAlgo.NONE (fun _ => (0, 0, 0, 0))
      (fun _ _ => 0) (fun _ => 0) (fun _ => 0) = Except.error Err.invalidAlgo :=
  claim_C10_invalid_algo Nat.add 20971520 8 0 16 AllReduceAlgo.NONE (fun _ => (0, 0, 0, 0))
    (fun _ _ => 0) (fun _ => 0) (fun _ => 0) (by decide) (by decide) (by decide)

end IntraNodeComm
